import Mathlib

/-!
Shell emulator: the pipeline engine of `shell.c`.

A shallow embedding of the function `external` of `src/shell.c` (the splitter
loop, pipe creation, the fork loop with the code run by each child, and the
wait loop) and of the loop of `main`, followed by theorems about them.

Conventions of the embedding.

* `char *argv[]` with `argc` entries is a `List String`.
* `char *cmds[16][16]` is the list of its cells as they lie in memory:
  `cmds[r][c]` is cell `16 * r + c`, so an index `c` of 16 or more names a
  cell of a following row, as it does in the compiled program.  A cell is
  `unset` until it is assigned; every index the splitter assigns is recorded
  in `Split.writes`.
* The operating system is an `Env`: the descriptor table on entry (any
  descriptor may be closed), the outcome of every `pipe`, `fork`, `open` and
  `execvp`, and the statuses stored by `waitpid`.  A successful `pipe` or
  `open` returns the lowest free descriptor numbers; a failed `pipe` leaves
  `pipes[i]` with the values it held before.
* One run of `external` describes one process.  The process in which every
  `fork` returns a positive pid is the shell itself; the process in which
  `fork` number `i` returns `0` is the child of stage `i`.
* The loop of `main` takes the token lists returned by `parse`, which is not
  part of the file.
-/

namespace Shell

/-! ## Cells and tables -/

/-- Write `v` at index `i` of a list, growing the list with `pad` when `i` is
past its end. -/
def setAt {α : Type} (pad : α) : List α → Nat → α → List α
  | [], 0, v => [v]
  | [], n + 1, v => pad :: setAt pad [] n v
  | _ :: xs, 0, v => v :: xs
  | x :: xs, n + 1, v => x :: setAt pad xs n v

/-- Read index `i` of a list, `pad` past its end. -/
def getAt {α : Type} (pad : α) : List α → Nat → α
  | [], _ => pad
  | x :: _, 0 => x
  | _ :: xs, n + 1 => getAt pad xs n

/-- Declared number of rows of `cmds`. -/
def CMD_ROWS : Nat := 16

/-- Declared number of cells in a row of `cmds`. -/
def CMD_COLS : Nat := 16

/-- The constant `MAX_TOKENS`. -/
def MAX_TOKENS : Nat := 32

/-- A cell of `cmds`: never assigned, `NULL`, or a pointer to a token. -/
inductive Cell where
  | unset
  | null
  | tok (s : String)
deriving DecidableEq

/-- The table `char *cmds[16][16]` as it lies in memory, row after row. -/
abbrev Table := List Cell

/-- The pointer `cmds[r]`: the cells from `cmds[r][0]` on, that is row `r`
followed by the rows after it. -/
def Table.row (t : Table) (r : Nat) : List Cell := t.drop (CMD_COLS * r)

/-- The assignment `cmds[r][c] = v`, to cell `CMD_COLS * r + c`. -/
def Table.write (t : Table) (r c : Nat) (v : Cell) : Table :=
  setAt Cell.unset t (CMD_COLS * r + c) v

/-! ## The splitter (lines 99-114) -/

/-- The local variables of the splitting loop, with the list of the table
indices it has assigned to. -/
structure Split where
  cmds : Table
  cmd_count : Nat
  arg_count : Nat
  empty_command : Bool
  writes : List (Nat × Nat)

/-- State before the loop: `cmd_count = 0, arg_count = 0, empty_command = true`. -/
def Split.init : Split :=
  { cmds := [], cmd_count := 0, arg_count := 0, empty_command := true, writes := [] }

/-- One iteration of `for (int i = 0; i < argc; i++)` on the token `argv[i]`. -/
def splitStep (s : Split) (tok : String) : Split :=
  if tok = "|" then
    if s.empty_command then s
    else
      { cmds := s.cmds.write s.cmd_count s.arg_count Cell.null
        cmd_count := s.cmd_count + 1
        arg_count := 0
        empty_command := true
        writes := s.writes ++ [(s.cmd_count, s.arg_count)] }
  else
    { cmds := s.cmds.write s.cmd_count s.arg_count (Cell.tok tok)
      cmd_count := s.cmd_count
      arg_count := s.arg_count + 1
      empty_command := false
      writes := s.writes ++ [(s.cmd_count, s.arg_count)] }

/-- The two statements after the loop: the final `NULL` and `cmd_count++`. -/
def splitFinish (s : Split) : Split :=
  { s with
    cmds := s.cmds.write s.cmd_count s.arg_count Cell.null
    cmd_count := s.cmd_count + 1
    writes := s.writes ++ [(s.cmd_count, s.arg_count)] }

/-- The splitter: the loop over all tokens, then the final `NULL`. -/
def split (argv : List String) : Split :=
  splitFinish (argv.foldl splitStep Split.init)

/-- The tokens from the start of a run of cells up to the first cell that is
not a token: what `while (cmds[i][arg_count] != NULL) arg_count++` counts,
and what `execvp` reads as its argument vector. -/
def argsOf : List Cell → List String
  | Cell.tok t :: rest => t :: argsOf rest
  | _ => []

/-- The first cell of the run that is not a token is a `NULL` that was
assigned: reading the run up to its `NULL` touches assigned cells only. -/
def nullTerminated : List Cell → Bool
  | Cell.tok _ :: rest => nullTerminated rest
  | Cell.null :: _ => true
  | _ => false

/-- The string a cell points to, `none` for `NULL`. -/
def Cell.str : Cell → Option String
  | Cell.tok s => some s
  | _ => none

/-- The token list the child of stage `i` finds at `cmds[i]`. -/
def Split.stage (s : Split) (i : Nat) : List String := argsOf (s.cmds.row i)

/-- The stages as they are read from the table, rows `0 .. cmd_count - 1`. -/
def Split.stages (s : Split) : List (List String) :=
  (List.range s.cmd_count).map s.stage

/-! ## Descriptors, diagnostics and system calls -/

/-- What a descriptor number refers to. -/
inductive Desc where
  | inherited (n : Nat)
  | pipeRead (k : Nat)
  | pipeWrite (k : Nat)
  | file (path : String) (output : Bool)
deriving DecidableEq

/-- Descriptor table of a process: entry `fd` is what descriptor `fd` refers
to, `none` when it is closed. -/
abbrev FdTable := List (Option Desc)

/-- What descriptor `fd` refers to. -/
def fdGet (t : FdTable) (fd : Nat) : Option Desc := getAt none t fd

/-- Lowest descriptor number that is not open. -/
def fdAlloc : FdTable → Nat
  | [] => 0
  | none :: _ => 0
  | some _ :: t => fdAlloc t + 1

/-- The lines `external` writes to `stderr`, one constructor per `fprintf`. -/
inductive Diag where
  | pipeBefore
  | pipeAfter
  | commandBefore (op : String)
  | fileError (path : String) (reason : String)
  | missingFilename
  | execError (file : Option String) (reason : String)
  | forkFailure
deriving DecidableEq

/-- Text of a diagnostic, from the format strings of the source. -/
def Diag.render : Diag → String
  | .pipeBefore => "syntax error: missing command before pipe\n"
  | .pipeAfter => "syntax error: missing command after pipe\n"
  | .commandBefore op => "syntax error: missing command before " ++ op ++ "\n"
  | .fileError path reason => path ++ ": " ++ reason ++ "\n"
  | .missingFilename => "syntax error: missing filename after redirect\n"
  | .execError file reason => file.getD "(null)" ++ ": " ++ reason ++ "\n"
  | .forkFailure => "fork failure"

/-- The system and library calls `external` makes, with their arguments and
results. -/
inductive Call where
  | pipe (readEnd writeEnd : Nat)
  | pipeFailed
  | fork (ret : Int)
  | dup2 (oldfd newfd : Nat)
  | close (fd : Nat)
  | openFile (path : String) (output : Bool) (ret : Option Nat)
  | execvp (file : Option String) (args : List String)
  | waitpid (pid : Int) (status : Int)
  | stderr (d : Diag)
deriving DecidableEq

/-- The operating system as one process sees it during one call of
`external`. -/
structure Env where
  /-- Descriptor table on entry. -/
  fds0 : FdTable
  /-- Whether the call `pipe(pipes[k])` succeeds. -/
  pipeOk : Nat → Bool
  /-- The values `pipes[k]` holds before it is assigned. -/
  junk : Nat → Nat × Nat
  /-- Value returned by the `fork()` of loop iteration `i`. -/
  fork : Nat → Int
  /-- Outcome of the `open` made for the operator at token index `j` of the
  stage: `none` on success, the `strerror` text on failure. -/
  openErr : Nat → String → Bool → Option String
  /-- Outcome of `execvp`: `none` when the program starts, the `strerror`
  text on failure. -/
  execErr : Option String → List String → Option String
  /-- Statuses stored by the successive `waitpid` calls for stage `i`. -/
  waits : Nat → List Int
  /-- The macros of `sys/wait.h`. -/
  WIFEXITED : Int → Bool
  WIFSIGNALED : Int → Bool
  WEXITSTATUS : Int → Int

/-- The constant `EXIT_FAILURE`. -/
def EXIT_FAILURE : Int := 1

/-- How a run of `external` ends in the process that runs it. -/
inductive Outcome where
  /-- The statement `return status`: control goes back to the caller. -/
  | returned (status : Int)
  /-- The call `exit(code)`: the process terminates. -/
  | exited (code : Int)
  /-- A successful `execvp`: the process now runs the program. -/
  | replaced
  /-- The wait loop never receives a terminal status. -/
  | blocked
  /-- The code reads a cell it never assigned. -/
  | undefined
deriving DecidableEq

/-- State of the process: its descriptor table and the calls made so far. -/
structure Proc where
  fds : FdTable
  trace : List Call

/-- Record a call. -/
def Proc.emit (p : Proc) (c : Call) : Proc := { p with trace := p.trace ++ [c] }

/-- The call `pipe(pipes[k])`: two fresh descriptors, read end first. -/
def Proc.pipe (p : Proc) (k : Nat) : Proc × (Nat × Nat) :=
  let r := fdAlloc p.fds
  let t := setAt none p.fds r (some (Desc.pipeRead k))
  let w := fdAlloc t
  ({ fds := setAt none t w (some (Desc.pipeWrite k)), trace := p.trace ++ [Call.pipe r w] }, (r, w))

/-- The call `dup2(oldfd, newfd)`; it fails and changes nothing when `oldfd`
is not open. -/
def Proc.dup2 (p : Proc) (oldfd newfd : Nat) : Proc :=
  match fdGet p.fds oldfd with
  | none => p.emit (Call.dup2 oldfd newfd)
  | some d => { fds := setAt none p.fds newfd (some d), trace := p.trace ++ [Call.dup2 oldfd newfd] }

/-- The call `close(fd)`. -/
def Proc.close (p : Proc) (fd : Nat) : Proc :=
  { fds := if fdGet p.fds fd = none then p.fds else setAt none p.fds fd none,
    trace := p.trace ++ [Call.close fd] }

/-- A successful `open(path, ...)`: the lowest free descriptor. -/
def Proc.openFile (p : Proc) (path : String) (output : Bool) : Proc × Nat :=
  let fd := fdAlloc p.fds
  ({ fds := setAt none p.fds fd (some (Desc.file path output)),
     trace := p.trace ++ [Call.openFile path output (some fd)] }, fd)

/-! ## The supervisor and the children (lines 116-204) -/

/-- The loop `for (i = 0; i < cmd_count - 1; i++) pipe(pipes[i])`, run for
`n` more iterations from index `k`; returns the array `pipes`.  The return
value of `pipe` is not looked at: after a failure `pipes[k]` keeps the values
it held. -/
def createPipes (env : Env) : Nat → Nat → Proc → Proc × List (Nat × Nat)
  | 0, _, p => (p, [])
  | n + 1, k, p =>
    let (p1, fds) := if env.pipeOk k then p.pipe k else (p.emit Call.pipeFailed, env.junk k)
    let (p2, more) := createPipes env n (k + 1) p1
    (p2, fds :: more)

/-- The loops `for (j = 0; j < cmd_count - 1; j++)` that close both ends of
every pipe (lines 135-138 in the child, 189-192 in the parent). -/
def closePipes : List (Nat × Nat) → Proc → Proc
  | [], p => p
  | (r, w) :: more, p => closePipes more ((p.close r).close w)

/-- Entry `pipes[k]` of the pipe array. -/
def pipeAt (pipes : List (Nat × Nat)) (k : Nat) : Nat × Nat := getAt (0, 0) pipes k

/-- Lines 129-138 of the child of stage `i`: connect the pipes, then close
every pipe descriptor. -/
def childPipes (pipes : List (Nat × Nat)) (cmd_count i : Nat) (p : Proc) : Proc :=
  let p := if 0 < i then p.dup2 (pipeAt pipes (i - 1)).1 0 else p
  let p := if i < cmd_count - 1 then p.dup2 (pipeAt pipes i).2 1 else p
  closePipes pipes p

/-- True for the tokens `>` and `<`. -/
def isRedirect (tok : String) : Bool := tok = ">" || tok = "<"

/-- The redirection loop of lines 145-174, from index `j` with the tokens
`cmds[i][j ..]` still to visit; `row` is the child's copy of the cells from
`cmds[i][0]` on.  The loop overwrites only cells it has already visited, so
the tokens still to visit are those read before the loop.  The result is the
cells after the loop, or `none` when the child has called
`exit(EXIT_FAILURE)`. -/
def redirectLoop (env : Env) : Nat → List String → List Cell → Proc →
    Proc × Option (List Cell)
  | _, [], row, p => (p, some row)
  | j, [tok], row, p =>
    if isRedirect tok then
      if j = 0 then (p.emit (Call.stderr (Diag.commandBefore tok)), none)
      else (p.emit (Call.stderr Diag.missingFilename), none)
    else (p, some row)
  | j, tok :: name :: rest, row, p =>
    if isRedirect tok then
      if j = 0 then (p.emit (Call.stderr (Diag.commandBefore tok)), none)
      else
        let is_output_redirect : Bool := tok = ">"
        let row := setAt Cell.unset row j Cell.null
        match env.openErr j name is_output_redirect with
        | some reason =>
          ((p.emit (Call.openFile name is_output_redirect none)).emit
            (Call.stderr (Diag.fileError name reason)), none)
        | none =>
          let (p, fd) := p.openFile name is_output_redirect
          let p := if is_output_redirect then p.dup2 fd 1 else p.dup2 fd 0
          let p := p.close fd
          redirectLoop env (j + 2) rest row p
    else redirectLoop env (j + 1) (name :: rest) row p

/-- The code of the child of stage `i` (lines 128-179).  Counting the
arguments reads the cells from `cmds[i][0]` up to the first `NULL`; when a
cell on the way was never assigned the run is undefined. -/
def child (env : Env) (cmds : Table) (pipes : List (Nat × Nat)) (cmd_count i : Nat)
    (p : Proc) : Proc × Outcome :=
  let p := childPipes pipes cmd_count i p
  let row := cmds.row i
  if nullTerminated row then
    match redirectLoop env 0 (argsOf row) row p with
    | (p, none) => (p, Outcome.exited EXIT_FAILURE)
    | (p, some row) =>
      let file := (getAt Cell.unset row 0).str
      let p := p.emit (Call.execvp file (argsOf row))
      match env.execErr file (argsOf row) with
      | none => (p, Outcome.replaced)
      | some reason =>
        (p.emit (Call.stderr (Diag.execError file reason)), Outcome.exited EXIT_FAILURE)
  else (p, Outcome.undefined)

/-- The fork loop of lines 125-186, run for `n` more iterations from index
`i`.  The result is the array `pids` when the loop ends, or the outcome of
the process when it ends inside the loop. -/
def forkLoop (env : Env) (cmds : Table) (pipes : List (Nat × Nat)) (cmd_count : Nat) :
    Nat → Nat → List Int → Proc → Proc × Sum Outcome (List Int)
  | 0, _, pids, p => (p, Sum.inr pids)
  | n + 1, i, pids, p =>
    let pid := env.fork i
    let p := p.emit (Call.fork pid)
    if pid = 0 then
      let (p, o) := child env cmds pipes cmd_count i p
      (p, Sum.inl o)
    else if 0 < pid then forkLoop env cmds pipes cmd_count n (i + 1) (pids ++ [pid]) p
    else (p.emit (Call.stderr Diag.forkFailure), Sum.inl (Outcome.exited EXIT_FAILURE))

/-- The loop `do waitpid(pid, &status, WUNTRACED) while (!WIFEXITED(status)
&& !WIFSIGNALED(status))` over the statuses the system reports for this
child; the result is the status that ended the loop. -/
def waitChild (env : Env) (pid : Int) : List Int → Proc → Proc × Option Int
  | [], p => (p, none)
  | status :: later, p =>
    let p := p.emit (Call.waitpid pid status)
    if env.WIFEXITED status || env.WIFSIGNALED status then (p, some status)
    else waitChild env pid later p

/-- The wait loop of lines 197-202 over `pids[i ..]`, then `return
exit_status`; `exit_status` is `none` until its first assignment. -/
def waitLoop (env : Env) : List Int → Nat → Option Int → Proc → Proc × Outcome
  | [], _, none, p => (p, Outcome.undefined)
  | [], _, some exit_status, p => (p, Outcome.returned exit_status)
  | pid :: pids, i, _, p =>
    match waitChild env pid (env.waits i) p with
    | (p, none) => (p, Outcome.blocked)
    | (p, some status) => waitLoop env pids (i + 1) (some (env.WEXITSTATUS status)) p

/-- Lines 99-204 of `external`: split, create the pipes, fork every stage,
close the pipes, wait. -/
def supervise (env : Env) (argv : List String) (p : Proc) : Proc × Outcome :=
  let s := split argv
  let (p, pipes) := createPipes env (s.cmd_count - 1) 0 p
  match forkLoop env s.cmds pipes s.cmd_count s.cmd_count 0 [] p with
  | (p, Sum.inl o) => (p, o)
  | (p, Sum.inr pids) => waitLoop env pids 0 none (closePipes pipes p)

/-- The function `external(argc, argv)` with `argc = argv.length`; it reads
`argv[0]` and `argv[argc - 1]`, so `argc = 0` is outside its domain. -/
def external (env : Env) (argv : List String) : Proc × Outcome :=
  let p : Proc := { fds := env.fds0, trace := [] }
  match argv.head?, argv.getLast? with
  | some first, some last =>
    if first = "|" then (p.emit (Call.stderr Diag.pipeBefore), Outcome.returned 1)
    else if last = "|" then (p.emit (Call.stderr Diag.pipeAfter), Outcome.returned 1)
    else supervise env argv p
  | _, _ => (p, Outcome.undefined)

/-! ## The shell loop (lines 235-280) -/

/-- What the built-ins need from the system. -/
structure Builtins where
  /-- Outcome of `chdir(dir)`: `none` on success, the `strerror` text on
  failure. -/
  chdir : String → Option String
  /-- The function `atoi`. -/
  atoi : String → Int

/-- Status returned by `cd(argc, argv)`. -/
def cd (b : Builtins) : List String → Int
  | [] => 0
  | [dir] => if (b.chdir dir).isSome then 1 else 0
  | _ => 1

/-- Status returned by `pwd(argc, argv)`. -/
def pwd : List String → Int
  | [] => 0
  | _ => 1

/-- The built-in `exit_shell(argc, argv)`: the code it exits with, or the
status it returns. -/
def exit_shell (b : Builtins) : List String → Sum Int Int
  | [] => Sum.inl 0
  | [code] => Sum.inl (b.atoi code)
  | _ => Sum.inr 1

/-- Lines 259-266: every token `$?` replaced by the decimal text of
`last_status`. -/
def substStatus (last_status : Int) (tokens : List String) : List String :=
  tokens.map (fun t => if t = "$?" then toString last_status else t)

/-- How the loop of `main` ends in the process that runs it. -/
inductive ShellEnd where
  /-- The call `fgets` reported the end of the input after all lines were run;
  `last_status` is the status of the last command. -/
  | endOfInput (last_status : Int)
  /-- The process ended inside the command of line `line`. -/
  | ended (line : Nat) (o : Outcome)
deriving DecidableEq

/-- The loop of `main` over the token lists `parse` returns for the
remaining input lines; `line` numbers the current line, `envs line` is the
system as `external` sees it on that line. -/
def mainLoop (b : Builtins) (envs : Nat → Env) : List (List String) → Nat → Int → ShellEnd
  | [], _, last_status => ShellEnd.endOfInput last_status
  | tokens :: later, line, last_status =>
    match substStatus last_status tokens with
    | [] => mainLoop b envs later (line + 1) last_status
    | name :: args =>
      if name = "cd" then mainLoop b envs later (line + 1) (cd b args)
      else if name = "pwd" then mainLoop b envs later (line + 1) (pwd args)
      else if name = "exit" then
        match exit_shell b args with
        | Sum.inl code => ShellEnd.ended line (Outcome.exited code)
        | Sum.inr status => mainLoop b envs later (line + 1) status
      else
        match (external (envs line) (name :: args)).2 with
        | Outcome.returned status => mainLoop b envs later (line + 1) status
        | o => ShellEnd.ended line o

/-! ## Reference functions used to state the properties -/

/-- Splitting as a function on lists: `cur` is the stage being accumulated;
a `|` closes it unless it is empty, the end of the input closes it always. -/
def chunks : List String → List String → List (List String)
  | cur, [] => [cur]
  | cur, tok :: rest =>
    if tok = "|" then
      if cur = [] then chunks [] rest else cur :: chunks [] rest
    else chunks (cur ++ [tok]) rest


/-- The cells holding the tokens `toks`, then `NULL`, then `tail`. -/
def rowOf (toks : List String) (tail : List Cell) : List Cell :=
  toks.map Cell.tok ++ Cell.null :: tail

/-- Stage token lists joined with a single `|` between consecutive stages. -/
def rejoin (stages : List (List String)) : List String := List.intercalate ["|"] stages

/-- The sequence with every `|` that directly follows a `|` removed;
`afterPipe` tells whether the token before the sequence is a `|`. -/
def collapse : Bool → List String → List String
  | _, [] => []
  | afterPipe, tok :: rest =>
    if tok = "|" then
      if afterPipe then collapse true rest else tok :: collapse true rest
    else tok :: collapse false rest

/-- Every run of consecutive `|` tokens collapsed to one. -/
def collapsePipes (argv : List String) : List String := collapse false argv

/-- True when the sequence has two adjacent `|` tokens. -/
def adjacentPipes : List String → Bool
  | [] => false
  | [_] => false
  | a :: b :: rest => (a = "|" && b = "|") || adjacentPipes (b :: rest)

/-- Number of maximal runs of `|` tokens; `afterPipe` tells whether the token
before the sequence is a `|`. -/
def pipeRuns : Bool → List String → Nat
  | _, [] => 0
  | afterPipe, tok :: rest =>
    if tok = "|" then
      if afterPipe then pipeRuns true rest else pipeRuns true rest + 1
    else pipeRuns false rest

/-- Relation between the counters of the splitting loop and the stages
closed so far (`done`) and under construction (`cur`). -/
structure SplitInv (s : Split) (done : List (List String)) (cur : List String) : Prop where
  cmd_count : s.cmd_count = done.length
  arg_count : s.arg_count = cur.length
  empty_command : s.empty_command = decide (cur = [])

/-- Cell `k` of the table. -/
def Table.cell (t : Table) (k : Nat) : Cell := getAt Cell.unset t k

/-- No cell of the table points to the token `|`. -/
def NoPipe (t : Table) : Prop := ∀ x, Cell.tok x ∈ t → x ≠ "|"

/-- From `cmds[r][0]` on, every cell before some index `n` has been assigned,
and cell `n` holds `NULL` or is the cell `pos` the splitter assigns next. -/
def ClosedFrom (t : Table) (r pos : Nat) : Prop :=
  ∃ n, CMD_COLS * r ≤ n ∧ (∀ k, CMD_COLS * r ≤ k → k < n → t.cell k ≠ Cell.unset) ∧
    (t.cell n = Cell.null ∨ n = pos)

/-- From `cmds[r][0]` on, every cell before some index `n` has been assigned
and cell `n` holds `NULL`. -/
def NullFrom (t : Table) (r : Nat) : Prop :=
  ∃ n, CMD_COLS * r ≤ n ∧ (∀ k, CMD_COLS * r ≤ k → k < n → t.cell k ≠ Cell.unset) ∧
    t.cell n = Cell.null

/-- The first `CMD_COLS` cells of row `r` hold the tokens of the stage
`stages[r]`, and its `NULL` when the stage has fewer than `CMD_COLS` tokens. -/
def RowsHold (t : Table) (stages : List (List String)) : Prop :=
  ∀ r, r < stages.length → ∀ c, c < CMD_COLS →
    (c < (getAt [] stages r).length →
      t.cell (CMD_COLS * r + c) = Cell.tok (getAt "" (getAt [] stages r) c)) ∧
    (c = (getAt [] stages r).length → t.cell (CMD_COLS * r + c) = Cell.null)

/-- The first cells of row `r` hold the tokens accumulated so far. -/
def RowHolds (t : Table) (r : Nat) (cur : List String) : Prop :=
  ∀ c, c < CMD_COLS → c < cur.length →
    t.cell (CMD_COLS * r + c) = Cell.tok (getAt "" cur c)

/-- A wait status that ends the `do ... while` loop of line 198: the child
exited or was killed by a signal. -/
def Env.terminal (env : Env) (status : Int) : Bool :=
  env.WIFEXITED status || env.WIFSIGNALED status

/-- The first terminal status among those reported for a child. -/
def Env.terminalStatus (env : Env) (statuses : List Int) : Option Int :=
  statuses.find? env.terminal

/-- The `close` calls of a loop that closes both ends of every pipe. -/
def closeCalls : List (Nat × Nat) → List Call
  | [] => []
  | (r, w) :: more => Call.close r :: Call.close w :: closeCalls more

/-- The descriptors of the array `pipes`. -/
def pipeFds (pipes : List (Nat × Nat)) : List Nat :=
  pipes.flatMap (fun rw => [rw.1, rw.2])

/-- The redirection loop passes over the tokens `toks`, found from index `j`
on, without leaving the child: no operator at index 0, and every operator it
visits is followed by a name whose `open` succeeds. -/
def scansCleanly (env : Env) : Nat → List String → Bool
  | _, [] => true
  | _, [tok] => !isRedirect tok
  | j, tok :: name :: rest =>
    if isRedirect tok then
      j != 0 && (env.openErr j name (tok = ">")).isNone && scansCleanly env (j + 2) rest
    else scansCleanly env (j + 1) (name :: rest)

/-- The file named by the last redirection of the given direction (`out`
true for `>`, false for `<`) among the operator-name pairs of the tokens. -/
def redirectTarget (out : Bool) : List String → Option String
  | [] => none
  | [_] => none
  | tok :: name :: rest =>
    if isRedirect tok then
      match redirectTarget out rest with
      | some later => some later
      | none => if decide (tok = ">") = out then some name else none
    else redirectTarget out (name :: rest)

/-- The token list with every redirection operator and the name after it
removed. -/
def stripRedirects : List String → List String
  | [] => []
  | [tok] => if isRedirect tok then [] else [tok]
  | tok :: name :: rest =>
    if isRedirect tok then stripRedirects rest else tok :: stripRedirects (name :: rest)

/-- The tokens before the first redirection operator. -/
def beforeRedirect (toks : List String) : List String :=
  toks.takeWhile (fun t => !isRedirect t)

/-- The `fork` calls of loop iterations `0 .. n - 1`. -/
def forkCalls (env : Env) (n : Nat) : List Call :=
  (List.range' 0 n).map (fun k => Call.fork (env.fork k))

/-- The glibc definitions of the `sys/wait.h` macros on a nonnegative status
word, with every `pipe`, `fork`, `open` and `execvp` succeeding, `fork`
returning pid `100 + i`, descriptors 0, 1, 2 open on entry, and stage `i`
reported stopped once (status `0x137f`) and then exited with code `i`. -/
def Env.sample : Env :=
  { fds0 := [some (Desc.inherited 0), some (Desc.inherited 1), some (Desc.inherited 2)]
    pipeOk := fun _ => true
    junk := fun _ => (0, 0)
    fork := fun i => 100 + (i : Int)
    openErr := fun _ _ _ => none
    execErr := fun _ _ => none
    waits := fun i => [0x137f, 256 * (i : Int)]
    WIFEXITED := fun s => s % 128 = 0
    WIFSIGNALED := fun s => 0 < s % 128 ∧ s % 128 < 127
    WEXITSTATUS := fun s => (s / 256) % 256 }

/-- The state after the loop that creates the pipes. -/
def afterPipes (env : Env) (argv : List String) : Proc :=
  (createPipes env ((split argv).cmd_count - 1) 0 ⟨env.fds0, []⟩).1

/-- The array `pipes` that `external` fills for the tokens `argv`. -/
def pipesOf (env : Env) (argv : List String) : List (Nat × Nat) :=
  (createPipes env ((split argv).cmd_count - 1) 0 ⟨env.fds0, []⟩).2

/-- The state in which the child of stage `i` starts: the descriptor table
left by the creation of the pipes, after the `fork` calls `0 .. i`. -/
def childStart (env : Env) (argv : List String) (i : Nat) : Proc :=
  { fds := (afterPipes env argv).fds,
    trace := (afterPipes env argv).trace ++ forkCalls env (i + 1) }

/-- The system of `Env.sample` as the child of stage `i` sees it: `fork`
returns 0 in iteration `i`. -/
def Env.childOf (i : Nat) : Env :=
  { Env.sample with fork := fun k => if k < i then 100 + (k : Int) else 0 }

/-- The child of stage `i` in a system where the file `missing` cannot be
opened. -/
def Env.noFile (i : Nat) : Env :=
  { Env.childOf i with
    openErr := fun _ name _ =>
      if name = "missing" then some "No such file or directory" else none }

/-- The child of stage `i` of a shell that was started with descriptor 1
closed. -/
def Env.stdoutClosed (i : Nat) : Env :=
  { Env.childOf i with fds0 := [some (Desc.inherited 0), none, some (Desc.inherited 2)] }

/-- The child of stage `i` of a shell that was started with descriptor 0
closed. -/
def Env.stdinClosed (i : Nat) : Env :=
  { Env.childOf i with fds0 := [none, some (Desc.inherited 1), some (Desc.inherited 2)] }

/-- The child of stage `i` in a system where every `pipe` fails and the
entries of `pipes` hold the numbers 7 and 8, which are not open. -/
def Env.pipeFails (i : Nat) : Env :=
  { Env.childOf i with pipeOk := fun _ => false, junk := fun _ => (7, 8) }

/-- The system of `Env.sample` except that `fork` succeeds for stage 0 only. -/
def Env.forkFails : Env :=
  { Env.sample with fork := fun i => if i = 0 then 100 else -1 }

/-- Built-ins whose `chdir` always succeeds. -/
def Builtins.sample : Builtins :=
  { chdir := fun _ => none, atoi := fun s => s.toInt?.getD 0 }

/-- A command of 16 tokens: `echo 1 2 ... 15`. -/
def echo15 : List String :=
  ["echo", "1", "2", "3", "4", "5", "6", "7", "8", "9", "10", "11", "12", "13", "14", "15"]

/-- Fifteen tokens `a1 ... a15`. -/
def args15 : List String :=
  ["a1", "a2", "a3", "a4", "a5", "a6", "a7", "a8", "a9", "a10", "a11", "a12", "a13", "a14",
    "a15"]

/-- A call `pipe`, successful or not. -/
def Call.isPipe : Call → Bool
  | .pipe _ _ => true
  | .pipeFailed => true
  | _ => false

/-- Calls other than `execvp` and the two pipe-placement diagnostics. -/
def Call.isPlain : Call → Bool
  | .execvp _ _ => false
  | .stderr .pipeBefore => false
  | .stderr .pipeAfter => false
  | _ => true

/-! # Theorems -/

/-! ## Lemmas on lists of cells -/

theorem getAt_length {α : Type} (pad : α) (l : List α) : getAt pad l l.length = pad := by
  induction l with
  | nil => rfl
  | cons x xs ih => simp [getAt, ih]

theorem getAt_append_last {α : Type} (pad : α) (l : List α) (x : α) :
    getAt pad (l ++ [x]) l.length = x := by
  induction l with
  | nil => rfl
  | cons y ys ih => simp [getAt, ih]

theorem getAt_append_left {α : Type} (pad : α) (l m : List α) :
    ∀ i, i < l.length → getAt pad (l ++ m) i = getAt pad l i := by
  induction l with
  | nil => intro i hi; exact absurd hi (Nat.not_lt_zero _)
  | cons x xs ih =>
    intro i hi
    cases i with
    | zero => rfl
    | succ i => simpa [getAt] using ih i (by simpa using hi)

theorem getAt_setAt_same {α : Type} (pad : α) (l : List α) :
    ∀ (i : Nat) (v : α), getAt pad (setAt pad l i v) i = v := by
  induction l with
  | nil =>
    intro i
    induction i with
    | zero => intro v; rfl
    | succ i ih => intro v; simpa [setAt, getAt] using ih v
  | cons x xs ih =>
    intro i v
    cases i with
    | zero => rfl
    | succ i => simpa [setAt, getAt] using ih i v

theorem getAt_nil {α : Type} (pad : α) (j : Nat) : getAt pad ([] : List α) j = pad := by
  cases j <;> rfl

theorem getAt_setAt_ne {α : Type} (pad : α) (l : List α) :
    ∀ (i j : Nat) (v : α), i ≠ j → getAt pad (setAt pad l i v) j = getAt pad l j := by
  induction l with
  | nil =>
    intro i
    induction i with
    | zero =>
      intro j v h
      cases j with
      | zero => exact absurd rfl h
      | succ j => simp [setAt, getAt, getAt_nil]
    | succ i ih =>
      intro j v h
      cases j with
      | zero => simp [setAt, getAt]
      | succ j =>
        have := ih j v (by omega)
        simpa [setAt, getAt, getAt_nil] using this
  | cons x xs ih =>
    intro i j v h
    cases i with
    | zero =>
      cases j with
      | zero => exact absurd rfl h
      | succ j => rfl
    | succ i =>
      cases j with
      | zero => rfl
      | succ j => simpa [setAt, getAt] using ih i j v (by omega)

theorem setAt_append_mid {α : Type} (pad : α) (done : List α) (x v : α) (tail : List α) :
    setAt pad (done ++ x :: tail) done.length v = done ++ v :: tail := by
  induction done with
  | nil => rfl
  | cons y ys ih => simp [setAt, ih]

theorem mem_setAt {α : Type} (pad : α) (l : List α) :
    ∀ (i : Nat) (v x : α), x ∈ setAt pad l i v → x ∈ l ∨ x = v ∨ x = pad := by
  induction l with
  | nil =>
    intro i
    induction i with
    | zero => intro v x h; simp [setAt] at h; exact Or.inr (Or.inl h)
    | succ i ih =>
      intro v x h
      simp only [setAt, List.mem_cons] at h
      rcases h with h | h
      · exact Or.inr (Or.inr h)
      · exact ih v x h
  | cons y ys ih =>
    intro i v x h
    cases i with
    | zero =>
      simp only [setAt, List.mem_cons] at h
      rcases h with h | h
      · exact Or.inr (Or.inl h)
      · exact Or.inl (List.mem_cons_of_mem _ h)
    | succ i =>
      simp only [setAt, List.mem_cons] at h
      rcases h with h | h
      · exact Or.inl (by simp [h])
      · rcases ih i v x h with h1 | h1
        · exact Or.inl (List.mem_cons_of_mem _ h1)
        · exact Or.inr h1

theorem getAt_drop {α : Type} (pad : α) (l : List α) :
    ∀ (m k : Nat), getAt pad (l.drop m) k = getAt pad l (m + k) := by
  induction l with
  | nil => intro m k; simp [getAt_nil]
  | cons x xs ih =>
    intro m k
    cases m with
    | zero => simp
    | succ m =>
      have := ih m k
      simp only [List.drop_succ_cons, this]
      rw [show m + 1 + k = (m + k) + 1 by omega]
      rfl

/-- Cell `k` after the assignment `cmds[r][c] = v`. -/
theorem cell_write (t : Table) (r c k : Nat) (v : Cell) :
    (t.write r c v).cell k = if k = CMD_COLS * r + c then v else t.cell k := by
  unfold Table.write Table.cell
  by_cases h : k = CMD_COLS * r + c
  · rw [if_pos h, h, getAt_setAt_same]
  · rw [if_neg h, getAt_setAt_ne _ _ _ _ _ (Ne.symm h)]

/-- Cell `c` of the run of cells at `cmds[r]`. -/
theorem getAt_row (t : Table) (r c : Nat) :
    getAt Cell.unset (t.row r) c = t.cell (CMD_COLS * r + c) :=
  getAt_drop Cell.unset t _ c

/-- A run of cells assigned up to a `NULL` is `NULL`-terminated. -/
theorem nullTerminated_of (n : Nat) :
    ∀ row : List Cell, (∀ k, k < n → getAt Cell.unset row k ≠ Cell.unset) →
      getAt Cell.unset row n = Cell.null → nullTerminated row = true := by
  induction n with
  | zero =>
    intro row _ h
    cases row with
    | nil => cases h
    | cons c rest =>
      have : c = Cell.null := h
      subst this
      rfl
  | succ n ih =>
    intro row hset h
    cases row with
    | nil => rw [getAt_nil] at h; cases h
    | cons c rest =>
      cases c with
      | unset => exact absurd rfl (hset 0 (Nat.succ_pos _))
      | null => rfl
      | tok s =>
        exact ih rest (fun k hk => hset (k + 1) (by omega)) h

/-- A `NULL`-terminated run of cells is its tokens, a `NULL`, and the cells
after it. -/
theorem nullTerminated_shape (row : List Cell) (h : nullTerminated row = true) :
    ∃ tail, row = rowOf (argsOf row) tail := by
  induction row with
  | nil => cases h
  | cons c rest ih =>
    cases c with
    | unset => cases h
    | null => exact ⟨rest, rfl⟩
    | tok s =>
      obtain ⟨tail, ht⟩ := ih h
      refine ⟨tail, ?_⟩
      show Cell.tok s :: rest = Cell.tok s :: rowOf (argsOf rest) tail
      rw [← ht]

theorem argsOf_rowOf (toks : List String) (tail : List Cell) :
    argsOf (rowOf toks tail) = toks := by
  induction toks with
  | nil => rfl
  | cons t ts ih =>
    show t :: argsOf (rowOf ts tail) = t :: ts
    rw [ih]

theorem argsOf_append_null (done tail : List Cell) :
    argsOf (done ++ Cell.null :: tail) = argsOf (done ++ [Cell.null]) := by
  induction done with
  | nil => rfl
  | cons y ys ih =>
    cases y with
    | tok t => simp [argsOf, ih]
    | null => rfl
    | unset => rfl

theorem argsOf_no_pipe (row : List Cell) (h : ∀ x, Cell.tok x ∈ row → x ≠ "|") :
    "|" ∉ argsOf row := by
  induction row with
  | nil => simp [argsOf]
  | cons c rest ih =>
    cases c with
    | unset => simp [argsOf]
    | null => simp [argsOf]
    | tok s =>
      simp only [argsOf, List.mem_cons, not_or]
      exact ⟨fun he => h s (by simp) he.symm, ih (fun x hx => h x (List.mem_cons_of_mem _ hx))⟩

/-! ## The counters of the splitter -/

theorem SplitInv.init : SplitInv Split.init [] [] :=
  ⟨rfl, rfl, rfl⟩

theorem SplitInv.tok {s : Split} {done : List (List String)} {cur : List String}
    (h : SplitInv s done cur) (tok : String) (ht : tok ≠ "|") :
    SplitInv (splitStep s tok) done (cur ++ [tok]) := by
  refine ⟨?_, ?_, ?_⟩
  · simp [splitStep, if_neg ht, h.cmd_count]
  · simp [splitStep, if_neg ht, h.arg_count]
  · simp [splitStep, if_neg ht]

theorem SplitInv.skip {s : Split} {done : List (List String)}
    (h : SplitInv s done []) : SplitInv (splitStep s "|") done [] := by
  have he : s.empty_command = true := by simpa using h.empty_command
  simpa [splitStep, he] using h

theorem SplitInv.close {s : Split} {done : List (List String)} {cur : List String}
    (h : SplitInv s done cur) (hc : cur ≠ []) :
    SplitInv (splitStep s "|") (done ++ [cur]) [] := by
  have he : s.empty_command = false := by simpa [hc] using h.empty_command
  refine ⟨?_, ?_, ?_⟩
  · simp [splitStep, he, h.cmd_count]
  · simp [splitStep, he]
  · simp [splitStep, he]

theorem split_loop (rest : List String) :
    ∀ (s : Split) (done : List (List String)) (cur : List String), SplitInv s done cur →
      (splitFinish (rest.foldl splitStep s)).cmd_count = (done ++ chunks cur rest).length := by
  induction rest with
  | nil =>
    intro s done cur h
    simp [splitFinish, chunks, h.cmd_count]
  | cons tok rest ih =>
    intro s done cur h
    rw [List.foldl_cons]
    by_cases ht : tok = "|"
    · subst ht
      by_cases hc : cur = []
      · subst hc
        have := ih _ _ _ h.skip
        simpa [chunks] using this
      · have := ih _ _ _ (h.close hc)
        simpa [chunks, hc] using this
    · have := ih _ _ _ (h.tok tok ht)
      simpa [chunks, ht] using this

/-- The final `cmd_count` is the number of chunks of the input. -/
theorem split_cmd_count (argv : List String) :
    (split argv).cmd_count = (chunks [] argv).length := by
  simpa using split_loop argv Split.init [] [] SplitInv.init

/-! ## Properties of `chunks` -/

theorem chunks_ne_nil (rest : List String) : ∀ cur : List String, chunks cur rest ≠ [] := by
  induction rest with
  | nil => intro cur; simp [chunks]
  | cons tok rest ih =>
    intro cur
    unfold chunks
    split
    · split
      · exact ih _
      · simp
    · exact ih _

theorem chunks_no_pipe (rest : List String) :
    ∀ cur : List String, "|" ∉ cur → ∀ st ∈ chunks cur rest, "|" ∉ st := by
  induction rest with
  | nil =>
    intro cur hcur st hst
    simp only [chunks, List.mem_singleton] at hst
    subst hst
    exact hcur
  | cons tok rest ih =>
    intro cur hcur st hst
    unfold chunks at hst
    split at hst
    · split at hst
      · exact ih [] (by simp) st hst
      · rcases List.mem_cons.1 hst with h | h
        · subst h; exact hcur
        · exact ih [] (by simp) st h
    · rename_i ht
      refine ih (cur ++ [tok]) ?_ st hst
      simp only [List.mem_append, List.mem_singleton, not_or]
      exact ⟨hcur, fun h => ht h.symm⟩

theorem chunks_nonempty (rest : List String) :
    ∀ cur : List String, (rest = [] → cur ≠ []) → rest.getLast? ≠ some "|" →
      ∀ st ∈ chunks cur rest, st ≠ [] := by
  induction rest with
  | nil =>
    intro cur h1 _ st hst
    simp only [chunks, List.mem_singleton] at hst
    subst hst
    exact h1 rfl
  | cons tok rest ih =>
    intro cur _ h2 st hst
    have hlast : rest.getLast? ≠ some "|" := by
      cases rest with
      | nil => simp
      | cons a r => simpa [List.getLast?_cons_cons] using h2
    unfold chunks at hst
    split at hst
    · rename_i ht
      have hrest : rest = [] → ([] : List String) ≠ [] := by
        intro hr
        subst hr
        subst ht
        simp at h2
      split at hst
      · exact ih [] hrest hlast st hst
      · rename_i hc
        rcases List.mem_cons.1 hst with h | h
        · subst h; exact hc
        · exact ih [] hrest hlast st h
    · exact ih (cur ++ [tok]) (fun _ => by simp) hlast st hst

theorem chunks_length (rest : List String) :
    ∀ cur : List String, (chunks cur rest).length = pipeRuns (decide (cur = [])) rest + 1 := by
  induction rest with
  | nil => intro cur; simp [chunks, pipeRuns]
  | cons tok rest ih =>
    intro cur
    unfold chunks pipeRuns
    by_cases ht : tok = "|"
    · by_cases hc : cur = []
      · simp [ht, hc, ih]
      · simp [ht, hc, ih]
    · simp [ht, ih]

theorem chunks_length_nil (argv : List String) :
    (chunks [] argv).length = pipeRuns true argv + 1 := by
  simpa using chunks_length argv []

theorem rejoin_cons (st : List String) (more : List (List String)) (h : more ≠ []) :
    rejoin (st :: more) = st ++ "|" :: rejoin more := by
  cases more with
  | nil => exact absurd rfl h
  | cons a r => simp [rejoin, List.intercalate, List.intersperse]

theorem rejoin_chunks (rest : List String) :
    ∀ cur : List String, rejoin (chunks cur rest) = cur ++ collapse (decide (cur = [])) rest := by
  induction rest with
  | nil => intro cur; simp [chunks, collapse, rejoin, List.intercalate]
  | cons tok rest ih =>
    intro cur
    unfold chunks collapse
    by_cases ht : tok = "|"
    · by_cases hc : cur = []
      · simp [ht, hc, ih]
      · simp [ht, hc, rejoin_cons _ _ (chunks_ne_nil rest []), ih]
    · simp [ht, ih]

theorem pipeRuns_head (argv : List String) (h : argv.head? ≠ some "|") :
    pipeRuns true argv = pipeRuns false argv := by
  cases argv with
  | nil => rfl
  | cons a r =>
    have ha : a ≠ "|" := by simpa using h
    simp [pipeRuns, ha]

theorem collapse_head (argv : List String) (h : argv.head? ≠ some "|") :
    collapse true argv = collapse false argv := by
  cases argv with
  | nil => rfl
  | cons a r =>
    have ha : a ≠ "|" := by simpa using h
    simp [collapse, ha]

theorem collapse_eq_self (argv : List String) :
    ∀ b : Bool, (b = true → argv.head? ≠ some "|") → adjacentPipes argv = false →
      collapse b argv = argv := by
  induction argv with
  | nil => intro b _ _; rfl
  | cons a r ih =>
    intro b hb hadj
    have hr : adjacentPipes r = false := by
      cases r with
      | nil => rfl
      | cons c r2 =>
        simp only [adjacentPipes, Bool.or_eq_false_iff] at hadj
        exact hadj.2
    unfold collapse
    by_cases ha : a = "|"
    · subst ha
      have hbf : b = false := by
        cases b with
        | false => rfl
        | true => exact absurd rfl (hb rfl)
      subst hbf
      have : collapse true r = r := by
        refine ih true (fun _ => ?_) hr
        cases r with
        | nil => simp
        | cons c r2 =>
          simp only [adjacentPipes, Bool.or_eq_false_iff] at hadj
          simpa using hadj.1
      simp [this]
    · simp [ha, ih false (by simp) hr]

theorem pipeRuns_bound (rest : List String) :
    rest.getLast? ≠ some "|" →
      2 * pipeRuns false rest ≤ rest.length ∧
      (rest ≠ [] → 2 * pipeRuns true rest + 1 ≤ rest.length) := by
  induction rest with
  | nil => intro _; simp [pipeRuns]
  | cons tok rest ih =>
    intro h2
    have hlast : rest.getLast? ≠ some "|" := by
      cases rest with
      | nil => simp
      | cons a r => simpa [List.getLast?_cons_cons] using h2
    obtain ⟨ih1, ih2⟩ := ih hlast
    by_cases ht : tok = "|"
    · subst ht
      have hne : rest ≠ [] := by
        intro hr
        subst hr
        simp at h2
      have := ih2 hne
      simp only [pipeRuns, if_true, List.length_cons]
      constructor
      · simp only [Bool.false_eq_true, if_false]; omega
      · intro _; omega
    · simp only [pipeRuns, if_neg ht, List.length_cons]
      constructor
      · omega
      · intro _; omega

/-- With at most `MAX_TOKENS` tokens, the first and last of them not `|`, the
splitter fills at most `CMD_ROWS` rows. -/
theorem split_cmd_count_le (argv : List String) (hlen : argv.length ≤ MAX_TOKENS)
    (hfirst : argv.head? ≠ some "|") (hlast : argv.getLast? ≠ some "|") :
    (split argv).cmd_count ≤ CMD_ROWS := by
  rw [split_cmd_count, chunks_length_nil, pipeRuns_head argv hfirst]
  have := (pipeRuns_bound argv hlast).1
  simp only [MAX_TOKENS, CMD_ROWS] at *
  cases argv with
  | nil => simp [pipeRuns]
  | cons a r =>
    have ha : a ≠ "|" := by simpa using hfirst
    have hr : r.getLast? ≠ some "|" := by
      cases r with
      | nil => simp
      | cons c r2 => simpa [List.getLast?_cons_cons] using hlast
    have := (pipeRuns_bound r hr).1
    simp only [pipeRuns, if_neg ha, List.length_cons] at *
    omega


/-! ## The table the splitter leaves -/

theorem noPipe_write (t : Table) (r c : Nat) (v : Cell) (h : NoPipe t)
    (hv : ∀ x, v = Cell.tok x → x ≠ "|") : NoPipe (t.write r c v) := by
  intro x hx
  rcases mem_setAt Cell.unset t _ v _ hx with h1 | h1 | h1
  · exact h x h1
  · exact hv x h1.symm
  · cases h1

theorem closedFrom_write (t : Table) (r R a : Nat) (v : Cell) (hv : v ≠ Cell.unset)
    (h : ClosedFrom t r (CMD_COLS * R + a)) :
    ClosedFrom (t.write R a v) r (CMD_COLS * R + a + 1) := by
  obtain ⟨n, h1, h2, h3⟩ := h
  by_cases hn : n = CMD_COLS * R + a
  · refine ⟨n + 1, by omega, ?_, Or.inr (by omega)⟩
    intro k hk1 hk2
    rw [cell_write]
    by_cases hk : k = CMD_COLS * R + a
    · rw [if_pos hk]; exact hv
    · rw [if_neg hk]; exact h2 k hk1 (by omega)
  · have h4 : t.cell n = Cell.null := by
      rcases h3 with h3 | h3
      · exact h3
      · exact absurd h3 hn
    refine ⟨n, h1, ?_, Or.inl ?_⟩
    · intro k hk1 hk2
      rw [cell_write]
      by_cases hk : k = CMD_COLS * R + a
      · rw [if_pos hk]; exact hv
      · rw [if_neg hk]; exact h2 k hk1 hk2
    · rw [cell_write, if_neg hn]
      exact h4

theorem nullFrom_write (t : Table) (r R a : Nat)
    (h : ClosedFrom t r (CMD_COLS * R + a)) : NullFrom (t.write R a Cell.null) r := by
  obtain ⟨n, h1, h2, h3⟩ := h
  refine ⟨n, h1, ?_, ?_⟩
  · intro k hk1 hk2
    rw [cell_write]
    by_cases hk : k = CMD_COLS * R + a
    · rw [if_pos hk]; intro hc; cases hc
    · rw [if_neg hk]; exact h2 k hk1 hk2
  · rw [cell_write]
    by_cases hn : n = CMD_COLS * R + a
    · rw [if_pos hn]
    · rw [if_neg hn]
      rcases h3 with h3 | h3
      · exact h3
      · exact absurd h3 hn

theorem NullFrom.closed {t : Table} {r : Nat} (h : NullFrom t r) (pos : Nat) :
    ClosedFrom t r pos := by
  obtain ⟨n, h1, h2, h3⟩ := h
  exact ⟨n, h1, h2, Or.inl h3⟩

theorem closedFrom_start (t : Table) (r : Nat) : ClosedFrom t r (CMD_COLS * r + 0) :=
  ⟨CMD_COLS * r, Nat.le_refl _, fun k h1 h2 => absurd h1 (by omega), Or.inr rfl⟩

theorem rowsHold_write (t : Table) (done : List (List String)) (a : Nat) (v : Cell)
    (h : RowsHold t done) : RowsHold (t.write done.length a v) done := by
  intro r hr c hc
  have hne : CMD_COLS * r + c ≠ CMD_COLS * done.length + a := by
    simp only [CMD_COLS] at hc ⊢
    omega
  rw [cell_write, if_neg hne]
  exact h r hr c hc

theorem rowsHold_close (t : Table) (done : List (List String)) (cur : List String)
    (h : RowsHold t done) (hcur : RowHolds t done.length cur) :
    RowsHold (t.write done.length cur.length Cell.null) (done ++ [cur]) := by
  intro r hr c hc
  rw [cell_write]
  by_cases hlt : r < done.length
  · have hne : CMD_COLS * r + c ≠ CMD_COLS * done.length + cur.length := by
      simp only [CMD_COLS] at hc ⊢
      omega
    rw [if_neg hne, getAt_append_left [] done [cur] r hlt]
    exact h r hlt c hc
  · have hr2 : r = done.length := by
      simp only [List.length_append, List.length_singleton] at hr
      omega
    subst hr2
    rw [getAt_append_last]
    constructor
    · intro hc2
      have hne : CMD_COLS * done.length + c ≠ CMD_COLS * done.length + cur.length := by omega
      rw [if_neg hne]
      exact hcur c hc hc2
    · intro hc2
      rw [if_pos (by rw [hc2])]

theorem rowHolds_write (t : Table) (R : Nat) (cur : List String) (x : String)
    (h : RowHolds t R cur) :
    RowHolds (t.write R cur.length (Cell.tok x)) R (cur ++ [x]) := by
  intro c hc hc2
  rw [cell_write]
  by_cases hlt : c < cur.length
  · have hne : CMD_COLS * R + c ≠ CMD_COLS * R + cur.length := by omega
    rw [if_neg hne, getAt_append_left "" cur [x] c hlt]
    exact h c hc hlt
  · have hc3 : c = cur.length := by
      simp only [List.length_append, List.length_singleton] at hc2
      omega
    subst hc3
    rw [if_pos rfl, getAt_append_last]

/-- What holds of the table when the splitter is done: no cell points to
`|`, every row is followed by assigned cells up to a `NULL`, and the first
`CMD_COLS` cells of every row hold the tokens of its chunk. -/
theorem split_flat (rest : List String) :
    ∀ (s : Split) (done : List (List String)) (cur : List String), SplitInv s done cur →
      NoPipe s.cmds →
      (∀ r, r ≤ s.cmd_count → ClosedFrom s.cmds r (CMD_COLS * s.cmd_count + s.arg_count)) →
      RowsHold s.cmds done → RowHolds s.cmds s.cmd_count cur →
      NoPipe (splitFinish (rest.foldl splitStep s)).cmds ∧
      (∀ r, r < (splitFinish (rest.foldl splitStep s)).cmd_count →
        NullFrom (splitFinish (rest.foldl splitStep s)).cmds r) ∧
      RowsHold (splitFinish (rest.foldl splitStep s)).cmds (done ++ chunks cur rest) := by
  induction rest with
  | nil =>
    intro s done cur h hp hc hr hcur
    simp only [List.foldl_nil, splitFinish, chunks]
    refine ⟨noPipe_write _ _ _ _ hp (fun x hx => by cases hx), ?_, ?_⟩
    · intro r hlt
      exact nullFrom_write _ r _ _ (hc r (by omega))
    · rw [h.cmd_count, h.arg_count]
      rw [h.cmd_count] at hcur
      exact rowsHold_close _ done cur hr hcur
  | cons tok rest ih =>
    intro s done cur h hp hc hr hcur
    rw [List.foldl_cons]
    by_cases ht : tok = "|"
    · subst ht
      by_cases hcn : cur = []
      · subst hcn
        have he : s.empty_command = true := by simpa using h.empty_command
        have hs : splitStep s "|" = s := by simp [splitStep, he]
        have := ih _ _ _ h.skip (by rw [hs]; exact hp) (by rw [hs]; exact hc)
          (by rw [hs]; exact hr) (by rw [hs]; exact hcur)
        simpa [chunks] using this
      · have he : s.empty_command = false := by simpa [hcn] using h.empty_command
        have e1 : (splitStep s "|").cmds = s.cmds.write s.cmd_count s.arg_count Cell.null := by
          simp [splitStep, he]
        have e2 : (splitStep s "|").cmd_count = s.cmd_count + 1 := by simp [splitStep, he]
        have e3 : (splitStep s "|").arg_count = 0 := by simp [splitStep, he]
        have := ih _ _ _ (h.close hcn)
          (by rw [e1]; exact noPipe_write _ _ _ _ hp (fun x hx => by cases hx))
          (by
            intro r hle
            rw [e1, e2, e3]
            by_cases hlt : r ≤ s.cmd_count
            · exact (nullFrom_write _ r _ _ (hc r hlt)).closed _
            · have : r = s.cmd_count + 1 := by omega
              rw [this]
              exact closedFrom_start _ _)
          (by
            rw [e1, h.cmd_count, h.arg_count]
            rw [h.cmd_count] at hcur
            exact rowsHold_close _ done cur hr hcur)
          (by intro c _ hc2; simp at hc2)
        simpa [chunks, hcn] using this
    · have e1 : (splitStep s tok).cmds
          = s.cmds.write s.cmd_count s.arg_count (Cell.tok tok) := by
        simp [splitStep, ht]
      have e2 : (splitStep s tok).cmd_count = s.cmd_count := by simp [splitStep, ht]
      have e3 : (splitStep s tok).arg_count = s.arg_count + 1 := by simp [splitStep, ht]
      have := ih _ _ _ (h.tok tok ht)
        (by
          rw [e1]
          refine noPipe_write _ _ _ _ hp ?_
          intro x hx
          cases hx
          exact ht)
        (by
          intro r hle
          rw [e1, e2, e3]
          rw [e2] at hle
          exact closedFrom_write _ r _ _ _ (by intro hc2; cases hc2) (hc r hle))
        (by
          rw [e1, h.cmd_count]
          exact rowsHold_write _ done _ _ hr)
        (by
          rw [e1, e2, h.arg_count]
          exact rowHolds_write _ _ cur tok hcur)
      simpa [chunks, ht] using this

theorem split_noPipe (argv : List String) : NoPipe (split argv).cmds :=
  (split_flat argv Split.init [] [] SplitInv.init (by intro x hx; cases hx)
    (by
      intro r hr
      have : r = 0 := Nat.le_zero.1 hr
      subst this
      exact closedFrom_start _ 0)
    (by intro r hr; cases hr) (by intro c _ hc; cases hc)).1

/-- Reading from `cmds[i][0]` meets a `NULL` before any cell that was never
assigned, for every stage `i`. -/
theorem split_nullFrom (argv : List String) (i : Nat) (hi : i < (split argv).cmd_count) :
    NullFrom (split argv).cmds i :=
  (split_flat argv Split.init [] [] SplitInv.init (by intro x hx; cases hx)
    (by
      intro r hr
      have : r = 0 := Nat.le_zero.1 hr
      subst this
      exact closedFrom_start _ 0)
    (by intro r hr; cases hr) (by intro c _ hc; cases hc)).2.1 i hi

theorem split_rowsHold (argv : List String) : RowsHold (split argv).cmds (chunks [] argv) := by
  have := (split_flat argv Split.init [] [] SplitInv.init (by intro x hx; cases hx)
    (by
      intro r hr
      have : r = 0 := Nat.le_zero.1 hr
      subst this
      exact closedFrom_start _ 0)
    (by intro r hr; cases hr) (by intro c _ hc; cases hc)).2.2
  simpa using this

/-! ## The stages read from the table -/

theorem getAt_mem {α : Type} (pad : α) (l : List α) :
    ∀ i, i < l.length → getAt pad l i ∈ l := by
  induction l with
  | nil => intro i hi; exact absurd hi (Nat.not_lt_zero _)
  | cons x xs ih =>
    intro i hi
    cases i with
    | zero => simp [getAt]
    | succ i => exact List.mem_cons_of_mem _ (ih i (by simpa using hi))

/-- The run of cells at `cmds[i]` is `NULL`-terminated, for every stage. -/
theorem split_row_terminated (argv : List String) (i : Nat)
    (hi : i < (split argv).cmd_count) :
    nullTerminated ((split argv).cmds.row i) = true := by
  obtain ⟨n, h1, h2, h3⟩ := split_nullFrom argv i hi
  refine nullTerminated_of (n - CMD_COLS * i) _ ?_ ?_
  · intro k hk
    rw [getAt_row]
    exact h2 _ (by omega) (by omega)
  · rw [getAt_row, show CMD_COLS * i + (n - CMD_COLS * i) = n by omega]
    exact h3

theorem argsOf_of_cells (toks : List String) :
    ∀ row : List Cell,
      (∀ c, c < toks.length → getAt Cell.unset row c = Cell.tok (getAt "" toks c)) →
      getAt Cell.unset row toks.length = Cell.null → argsOf row = toks := by
  induction toks with
  | nil =>
    intro row _ h
    cases row with
    | nil => rfl
    | cons c rest =>
      have : c = Cell.null := h
      subst this
      rfl
  | cons t ts ih =>
    intro row h1 h2
    cases row with
    | nil =>
      have := h1 0 (by simp)
      rw [getAt_nil] at this
      cases this
    | cons c rest =>
      have hc : c = Cell.tok t := h1 0 (by simp)
      subst hc
      show t :: argsOf rest = t :: ts
      rw [ih rest (fun c hc => h1 (c + 1) (by simpa using hc)) h2]

theorem argsOf_length_ge (n : Nat) :
    ∀ row : List Cell, (∀ c, c < n → ∃ x, getAt Cell.unset row c = Cell.tok x) →
      n ≤ (argsOf row).length := by
  induction n with
  | zero => intro row _; exact Nat.zero_le _
  | succ n ih =>
    intro row h
    cases row with
    | nil =>
      obtain ⟨x, hx⟩ := h 0 (Nat.succ_pos _)
      rw [getAt_nil] at hx
      cases hx
    | cons c rest =>
      obtain ⟨x, hx⟩ := h 0 (Nat.succ_pos _)
      have hc : c = Cell.tok x := hx
      subst hc
      have := ih rest (fun c hc => h (c + 1) (by omega))
      simp only [argsOf, List.length_cons]
      omega

/-- A stage read from the table with fewer than `CMD_COLS` tokens is the
chunk of the input the splitter stored in its row. -/
theorem split_stage_fit (argv : List String) (i : Nat) (hi : i < (split argv).cmd_count)
    (hfit : ((split argv).stage i).length < CMD_COLS) :
    (split argv).stage i = getAt [] (chunks [] argv) i := by
  have hrows := split_rowsHold argv i (by rwa [split_cmd_count] at hi)
  have hlt : (getAt [] (chunks [] argv) i).length < CMD_COLS := by
    by_contra hge
    have : CMD_COLS ≤ ((split argv).stage i).length := by
      refine argsOf_length_ge CMD_COLS _ ?_
      intro c hc
      rw [getAt_row]
      exact ⟨_, (hrows c hc).1 (by omega)⟩
    omega
  refine argsOf_of_cells _ _ ?_ ?_
  · intro c hc
    rw [getAt_row]
    exact (hrows c (by omega)).1 hc
  · rw [getAt_row]
    exact (hrows _ hlt).2 rfl

/-- A chunk with fewer than `CMD_COLS` tokens is read back from its row as
it was stored. -/
theorem split_chunk_fit (argv : List String) (i : Nat) (hi : i < (split argv).cmd_count)
    (hfit : (getAt [] (chunks [] argv) i).length < CMD_COLS) :
    (split argv).stage i = getAt [] (chunks [] argv) i := by
  have hrows := split_rowsHold argv i (by rwa [split_cmd_count] at hi)
  refine argsOf_of_cells _ _ ?_ ?_
  · intro c hc
    rw [getAt_row]
    exact (hrows c (by omega)).1 hc
  · rw [getAt_row]
    exact (hrows _ hfit).2 rfl

theorem map_range_getAt {α : Type} (pad : α) (l : List α) :
    (List.range l.length).map (fun i => getAt pad l i) = l := by
  induction l with
  | nil => rfl
  | cons x xs ih =>
    rw [List.length_cons, List.range_succ_eq_map, List.map_cons, List.map_map]
    simp only [getAt, List.cons.injEq, true_and]
    exact ih

/-- When every chunk of the input has fewer than `CMD_COLS` tokens, the
stages read from the table are the chunks. -/
theorem split_stages_fit (argv : List String)
    (hfit : ∀ st ∈ chunks [] argv, st.length < CMD_COLS) :
    (split argv).stages = chunks [] argv := by
  unfold Split.stages
  have h : ∀ i ∈ List.range (split argv).cmd_count,
      (split argv).stage i = getAt [] (chunks [] argv) i := by
    intro i hi
    have hi2 : i < (split argv).cmd_count := List.mem_range.1 hi
    exact split_chunk_fit argv i hi2
      (hfit _ (getAt_mem [] _ i (by rwa [split_cmd_count] at hi2)))
  rw [List.map_congr_left h, split_cmd_count]
  exact map_range_getAt [] _

/-- Within the capacity of the rows the round trip of C3 holds: when every
chunk has fewer than `CMD_COLS` tokens, the stages rejoin to the input with
its runs of `|` collapsed. -/
theorem split_rejoin_fit (argv : List String) (hfirst : argv.head? ≠ some "|")
    (hfit : ∀ st ∈ chunks [] argv, st.length < CMD_COLS) :
    rejoin (split argv).stages = collapsePipes argv ∧
    (adjacentPipes argv = false → rejoin (split argv).stages = argv) := by
  have h : rejoin (split argv).stages = collapsePipes argv := by
    rw [split_stages_fit argv hfit, rejoin_chunks]
    simpa [collapsePipes] using collapse_head argv hfirst
  refine ⟨h, fun hadj => ?_⟩
  rw [h]
  exact collapse_eq_self argv false (by simp) hadj

theorem split_stage_ne_nil (argv : List String) (hne : argv ≠ [])
    (hlast : argv.getLast? ≠ some "|") (i : Nat) (hi : i < (split argv).cmd_count) :
    (split argv).stage i ≠ [] := by
  have hi2 : i < (chunks [] argv).length := by rwa [split_cmd_count] at hi
  have hchunk : getAt [] (chunks [] argv) i ≠ [] :=
    chunks_nonempty argv [] (fun h _ => hne h) hlast _ (getAt_mem [] _ i hi2)
  have hpos : 0 < (getAt [] (chunks [] argv) i).length := List.length_pos.2 hchunk
  have hcell := (split_rowsHold argv i hi2 0 (by decide)).1 hpos
  rw [← getAt_row] at hcell
  unfold Split.stage
  cases hrow : (split argv).cmds.row i with
  | nil => rw [hrow, getAt_nil] at hcell; cases hcell
  | cons c rest =>
    rw [hrow] at hcell
    have : c = Cell.tok (getAt "" (getAt [] (chunks [] argv) i) 0) := hcell
    subst this
    simp [argsOf]

theorem split_stage_no_pipe (argv : List String) (i : Nat) :
    "|" ∉ (split argv).stage i := by
  refine argsOf_no_pipe _ ?_
  intro x hx
  exact split_noPipe argv x (List.mem_of_mem_drop hx)

theorem split_stage_mem (argv : List String) (i : Nat) (hi : i < (split argv).cmd_count) :
    (split argv).stage i ∈ (split argv).stages := by
  simp only [Split.stages, List.mem_map, List.mem_range]
  exact ⟨i, hi, rfl⟩

/-! ## Claims on the splitter -/

/-- C3 (failing input): on the 18 tokens `echo 1 ... 15 | cat`, which
neither begin nor end with `|` and have no two adjacent `|`, stage 0 is read
back from the table as `echo 1 ... 15 cat`: the `NULL` that closes it was
stored at `cmds[0][16]`, the cell `cmds[1][0]`, and overwritten by `cat`.
The stages rejoined are not the input. -/
theorem split_rejoin_overflow :
    (echo15 ++ ["|", "cat"]).length ≤ MAX_TOKENS ∧
    (echo15 ++ ["|", "cat"]).head? ≠ some "|" ∧
    (echo15 ++ ["|", "cat"]).getLast? ≠ some "|" ∧
    adjacentPipes (echo15 ++ ["|", "cat"]) = false ∧
    (split (echo15 ++ ["|", "cat"])).stages = [echo15 ++ ["cat"], ["cat"]] ∧
    rejoin (split (echo15 ++ ["|", "cat"])).stages ≠ echo15 ++ ["|", "cat"] ∧
    rejoin (split (echo15 ++ ["|", "cat"])).stages ≠ collapsePipes (echo15 ++ ["|", "cat"]) := by
  decide

/-- C7: for a token sequence of length at least 1 whose first and last
tokens are not `|`, the splitter produces at least one stage, no stage is
empty, no stage contains `|`, and the number of stages (the final
`cmd_count`) is one more than the number of maximal runs of `|`. -/
theorem split_stages_wellformed (argv : List String) (hne : argv ≠ [])
    (hfirst : argv.head? ≠ some "|") (hlast : argv.getLast? ≠ some "|") :
    1 ≤ (split argv).stages.length ∧
    (∀ st ∈ (split argv).stages, st ≠ []) ∧
    (∀ st ∈ (split argv).stages, "|" ∉ st) ∧
    (split argv).stages.length = pipeRuns false argv + 1 ∧
    (split argv).cmd_count = (split argv).stages.length := by
  have hc : (split argv).cmd_count = (split argv).stages.length := by
    simp [Split.stages]
  have hlen : (split argv).stages.length = pipeRuns false argv + 1 := by
    rw [← hc, split_cmd_count, chunks_length_nil, pipeRuns_head argv hfirst]
  refine ⟨by omega, ?_, ?_, hlen, hc⟩
  · intro st hst
    simp only [Split.stages, List.mem_map, List.mem_range] at hst
    obtain ⟨i, hi, rfl⟩ := hst
    exact split_stage_ne_nil argv hne hlast i hi
  · intro st hst
    simp only [Split.stages, List.mem_map, List.mem_range] at hst
    obtain ⟨i, _, rfl⟩ := hst
    exact split_stage_no_pipe argv i

theorem split_stages_wellformed_witness :
    (split ["ls", "|", "|", "wc", "-l"]).stages = [["ls"], ["wc", "-l"]] ∧
    (split ["ls", "|", "|", "wc", "-l"]).stages.length
      = pipeRuns false ["ls", "|", "|", "wc", "-l"] + 1 :=
  ⟨by decide,
   (split_stages_wellformed ["ls", "|", "|", "wc", "-l"]
      (by decide) (by decide) (by decide)).2.2.2.1⟩

/-- C10 (failing input): on the 16 tokens `echo 1 ... 15`, within
`MAX_TOKENS` and with no `|` at either end, the splitter assigns to
`cmds[0][16]`, one cell past the `CMD_COLS = 16` cells of row 0. -/
theorem split_row_overflow :
    (["echo", "1", "2", "3", "4", "5", "6", "7", "8", "9", "10", "11", "12", "13", "14",
        "15"] : List String).length ≤ MAX_TOKENS ∧
    (0, 16) ∈ (split ["echo", "1", "2", "3", "4", "5", "6", "7", "8", "9", "10", "11", "12",
        "13", "14", "15"]).writes ∧
    ¬ (16 < CMD_COLS) := by
  decide

/-! ## Which calls each part of `external` makes -/

section Trace

variable {R : Call → Prop}

theorem emit_trace (p : Proc) (c : Call) (hc : R c) (hp : ∀ x ∈ p.trace, R x) :
    ∀ x ∈ (p.emit c).trace, R x := by
  intro x hx
  simp only [Proc.emit, List.mem_append, List.mem_singleton] at hx
  rcases hx with h | h
  · exact hp x h
  · subst h; exact hc

theorem pipe_trace (hR : ∀ c, c.isPlain = true → R c) (p : Proc) (k : Nat)
    (hp : ∀ x ∈ p.trace, R x) : ∀ x ∈ (p.pipe k).1.trace, R x := by
  intro x hx
  simp only [Proc.pipe, List.mem_append, List.mem_singleton] at hx
  rcases hx with h | h
  · exact hp x h
  · subst h; exact hR _ rfl

theorem dup2_trace (hR : ∀ c, c.isPlain = true → R c) (p : Proc) (a b : Nat)
    (hp : ∀ x ∈ p.trace, R x) : ∀ x ∈ (p.dup2 a b).trace, R x := by
  intro x hx
  have : x ∈ p.trace ∨ x = Call.dup2 a b := by
    unfold Proc.dup2 at hx
    split at hx
    · simpa [Proc.emit] using hx
    · simpa using hx
  rcases this with h | h
  · exact hp x h
  · subst h; exact hR _ rfl

theorem close_trace (hR : ∀ c, c.isPlain = true → R c) (p : Proc) (fd : Nat)
    (hp : ∀ x ∈ p.trace, R x) : ∀ x ∈ (p.close fd).trace, R x := by
  intro x hx
  simp only [Proc.close, List.mem_append, List.mem_singleton] at hx
  rcases hx with h | h
  · exact hp x h
  · subst h; exact hR _ rfl

theorem openFile_trace (hR : ∀ c, c.isPlain = true → R c) (p : Proc) (path : String)
    (out : Bool) (hp : ∀ x ∈ p.trace, R x) : ∀ x ∈ (p.openFile path out).1.trace, R x := by
  intro x hx
  simp only [Proc.openFile, List.mem_append, List.mem_singleton] at hx
  rcases hx with h | h
  · exact hp x h
  · subst h; exact hR _ rfl

theorem createPipes_trace (hR : ∀ c, c.isPlain = true → R c) (env : Env) (n : Nat) :
    ∀ (k : Nat) (p : Proc), (∀ x ∈ p.trace, R x) →
      ∀ x ∈ (createPipes env n k p).1.trace, R x := by
  induction n with
  | zero => intro k p hp; simpa [createPipes] using hp
  | succ n ih =>
    intro k p hp
    simp only [createPipes]
    refine ih (k + 1) _ ?_
    split
    · exact pipe_trace hR p k hp
    · exact emit_trace p _ (hR _ rfl) hp

theorem closePipes_trace (hR : ∀ c, c.isPlain = true → R c) (pipes : List (Nat × Nat)) :
    ∀ p : Proc, (∀ x ∈ p.trace, R x) → ∀ x ∈ (closePipes pipes p).trace, R x := by
  induction pipes with
  | nil => intro p hp; simpa [closePipes] using hp
  | cons pr more ih =>
    intro p hp
    obtain ⟨r, w⟩ := pr
    simp only [closePipes]
    exact ih _ (close_trace hR _ w (close_trace hR p r hp))

theorem childPipes_trace (hR : ∀ c, c.isPlain = true → R c) (pipes : List (Nat × Nat))
    (n i : Nat) (p : Proc) (hp : ∀ x ∈ p.trace, R x) :
    ∀ x ∈ (childPipes pipes n i p).trace, R x := by
  unfold childPipes
  refine closePipes_trace hR pipes _ ?_
  have h1 : ∀ x ∈ (if 0 < i then p.dup2 (pipeAt pipes (i - 1)).1 0 else p).trace, R x := by
    split
    · exact dup2_trace hR p _ _ hp
    · exact hp
  split
  · exact dup2_trace hR _ _ _ h1
  · exact h1

theorem redirectLoop_trace (hR : ∀ c, c.isPlain = true → R c) (env : Env) (n : Nat) :
    ∀ (toks : List String), toks.length ≤ n → ∀ (j : Nat) (row : List Cell)
      (p : Proc), (∀ x ∈ p.trace, R x) →
      ∀ x ∈ (redirectLoop env j toks row p).1.trace, R x := by
  induction n with
  | zero =>
    intro toks hlen j row p hp
    have : toks = [] := List.length_eq_zero.1 (Nat.le_zero.1 hlen)
    subst this
    simpa [redirectLoop] using hp
  | succ n ih =>
    intro toks hlen j row p hp
    match toks, hlen with
    | [], _ => simpa [redirectLoop] using hp
    | [tok], _ =>
      unfold redirectLoop
      split
      · split
        · exact emit_trace p _ (hR _ rfl) hp
        · exact emit_trace p _ (hR _ rfl) hp
      · exact hp
    | tok :: name :: rest, hlen =>
      have hl1 : (name :: rest).length ≤ n := by simpa using hlen
      have hl2 : rest.length ≤ n := by simp at hlen; omega
      unfold redirectLoop
      split
      · split
        · exact emit_trace p _ (hR _ rfl) hp
        · simp only []
          split
          · exact emit_trace _ _ (hR _ rfl) (emit_trace p _ (hR _ rfl) hp)
          · refine ih rest hl2 _ _ _ ?_
            refine close_trace hR _ _ ?_
            split
            · exact dup2_trace hR _ _ _ (openFile_trace hR p _ _ hp)
            · exact dup2_trace hR _ _ _ (openFile_trace hR p _ _ hp)
      · exact ih _ hl1 _ _ _ hp

theorem waitChild_trace (hR : ∀ c, c.isPlain = true → R c) (env : Env) (pid : Int)
    (sts : List Int) : ∀ p : Proc, (∀ x ∈ p.trace, R x) →
      ∀ x ∈ (waitChild env pid sts p).1.trace, R x := by
  induction sts with
  | nil => intro p hp; simpa [waitChild] using hp
  | cons st later ih =>
    intro p hp
    unfold waitChild
    simp only []
    split
    · exact emit_trace p _ (hR _ rfl) hp
    · exact ih _ (emit_trace p _ (hR _ rfl) hp)

theorem waitLoop_trace (hR : ∀ c, c.isPlain = true → R c) (env : Env) (pids : List Int) :
    ∀ (i : Nat) (es : Option Int) (p : Proc), (∀ x ∈ p.trace, R x) →
      ∀ x ∈ (waitLoop env pids i es p).1.trace, R x := by
  induction pids with
  | nil =>
    intro i es p hp
    cases es <;> simpa [waitLoop] using hp
  | cons pid pids ih =>
    intro i es p hp
    unfold waitLoop
    have h := waitChild_trace hR env pid (env.waits i) p hp
    split
    · rename_i p1 heq
      rw [heq] at h
      exact h
    · rename_i p1 st heq
      rw [heq] at h
      exact ih _ _ _ h

theorem child_trace (hR : ∀ c, c.isPlain = true → R c) (hE : ∀ f a, R (Call.execvp f a))
    (env : Env) (cmds : Table) (pipes : List (Nat × Nat)) (n i : Nat) (p : Proc)
    (hp : ∀ x ∈ p.trace, R x) : ∀ x ∈ (child env cmds pipes n i p).1.trace, R x := by
  unfold child
  simp only []
  have h0 := childPipes_trace hR pipes n i p hp
  have h := redirectLoop_trace hR env _ (argsOf (cmds.row i)) (Nat.le_refl _) 0 (cmds.row i)
    (childPipes pipes n i p) h0
  split
  · split
    · rename_i p1 heq
      rw [heq] at h
      exact h
    · rename_i p1 row heq
      rw [heq] at h
      split
      · exact emit_trace p1 _ (hE _ _) h
      · exact emit_trace _ _ (hR _ rfl) (emit_trace p1 _ (hE _ _) h)
  · exact h0

theorem forkLoop_trace (hR : ∀ c, c.isPlain = true → R c) (hE : ∀ f a, R (Call.execvp f a))
    (env : Env) (cmds : Table) (pipes : List (Nat × Nat)) (cc n : Nat) :
    ∀ (i : Nat) (pids : List Int) (p : Proc), (∀ x ∈ p.trace, R x) →
      ∀ x ∈ (forkLoop env cmds pipes cc n i pids p).1.trace, R x := by
  induction n with
  | zero => intro i pids p hp; simpa [forkLoop] using hp
  | succ n ih =>
    intro i pids p hp
    unfold forkLoop
    simp only []
    have h1 := emit_trace p (Call.fork (env.fork i)) (hR _ rfl) hp
    split
    · exact child_trace hR hE env cmds pipes cc i _ h1
    · split
      · exact ih _ _ _ h1
      · exact emit_trace _ _ (hR _ rfl) h1

theorem external_trace (hR : ∀ c, c.isPlain = true → R c) (hE : ∀ f a, R (Call.execvp f a))
    (env : Env) (argv : List String) (hfirst : argv.head? ≠ some "|")
    (hlast : argv.getLast? ≠ some "|") : ∀ x ∈ (external env argv).1.trace, R x := by
  unfold external
  simp only []
  split
  · rename_i first last h1 h2
    have hf : first ≠ "|" := fun h => hfirst (by rw [h1, h])
    have hl : last ≠ "|" := fun h => hlast (by rw [h2, h])
    rw [if_neg hf, if_neg hl]
    unfold supervise
    simp only []
    have hc := createPipes_trace hR env ((split argv).cmd_count - 1) 0
      ⟨env.fds0, []⟩ (by simp)
    have hfk := forkLoop_trace hR hE env (split argv).cmds
      (createPipes env ((split argv).cmd_count - 1) 0 ⟨env.fds0, []⟩).2 (split argv).cmd_count
      (split argv).cmd_count 0 [] _ hc
    split
    · rename_i p1 o heq
      rw [heq] at hfk
      exact hfk
    · rename_i p1 pids heq
      rw [heq] at hfk
      exact waitLoop_trace hR env pids 0 none _ (closePipes_trace hR _ p1 hfk)
  · simp

end Trace

/-! ## Pipe placement (lines 88-97) -/

/-- C1: for a token sequence of length at least 1, a leading `|` makes
`external` write "syntax error: missing command before pipe", a trailing `|`
(the first token not being one) makes it write "syntax error: missing command
after pipe"; in both cases that line is the only call made (no pipe, no
fork) and `external` returns 1; in every other case neither of the two lines
is written. -/
theorem external_pipe_placement (env : Env) (argv : List String) (hne : argv ≠ []) :
    (argv.head? = some "|" →
      (external env argv).1.trace = [Call.stderr Diag.pipeBefore] ∧
      (external env argv).2 = Outcome.returned 1) ∧
    (argv.head? ≠ some "|" → argv.getLast? = some "|" →
      (external env argv).1.trace = [Call.stderr Diag.pipeAfter] ∧
      (external env argv).2 = Outcome.returned 1) ∧
    (argv.head? ≠ some "|" → argv.getLast? ≠ some "|" →
      Call.stderr Diag.pipeBefore ∉ (external env argv).1.trace ∧
      Call.stderr Diag.pipeAfter ∉ (external env argv).1.trace) ∧
    Diag.pipeBefore.render = "syntax error: missing command before pipe\n" ∧
    Diag.pipeAfter.render = "syntax error: missing command after pipe\n" := by
  refine ⟨?_, ?_, ?_, rfl, rfl⟩
  · intro h
    obtain ⟨last, hl⟩ : ∃ last, argv.getLast? = some last := by
      cases hg : argv.getLast? with
      | none => exact absurd (List.getLast?_eq_none_iff.1 hg) hne
      | some l => exact ⟨l, rfl⟩
    simp [external, h, hl, Proc.emit]
  · intro h1 h2
    obtain ⟨first, hf⟩ : ∃ first, argv.head? = some first := by
      cases hg : argv.head? with
      | none => exact absurd (List.head?_eq_none_iff.1 hg) hne
      | some l => exact ⟨l, rfl⟩
    have hfp : first ≠ "|" := fun h => h1 (by rw [hf, h])
    simp [external, hf, h2, hfp, Proc.emit]
  · intro h1 h2
    have h := external_trace (R := fun c => c ≠ Call.stderr Diag.pipeBefore ∧
      c ≠ Call.stderr Diag.pipeAfter)
      (by
        intro c hc
        constructor <;> (intro h; subst h; simp [Call.isPlain] at hc))
      (by intro f a; simp) env argv h1 h2
    exact ⟨fun hm => (h _ hm).1 rfl, fun hm => (h _ hm).2 rfl⟩

theorem external_pipe_placement_witness :
    (external Env.sample ["|", "wc"]).2 = Outcome.returned 1 ∧
    (external Env.sample ["ls", "|"]).1.trace = [Call.stderr Diag.pipeAfter] ∧
    Call.stderr Diag.pipeAfter ∉ (external Env.sample ["ls", "|", "wc"]).1.trace :=
  ⟨((external_pipe_placement Env.sample ["|", "wc"] (by decide)).1 (by decide)).2,
   ((external_pipe_placement Env.sample ["ls", "|"] (by decide)).2.1
      (by decide) (by decide)).1,
   ((external_pipe_placement Env.sample ["ls", "|", "wc"] (by decide)).2.2.1
      (by decide) (by decide)).2⟩

/-! ## The three ways through the fork loop -/

/-- The `fork` calls of iterations `i .. i + n - 1`. -/
theorem forkCalls_succ (env : Env) (i n : Nat) :
    (List.range' i (n + 1)).map (fun k => Call.fork (env.fork k))
      = Call.fork (env.fork i) :: (List.range' (i + 1) n).map (fun k => Call.fork (env.fork k)) := by
  simp [List.range'_succ]

/-- In the shell (every `fork` returns a positive pid) the loop makes one
`fork` per stage and ends with all the pids. -/
theorem forkLoop_parent (env : Env) (cmds : Table) (pipes : List (Nat × Nat)) (cc n : Nat) :
    ∀ (i : Nat) (pids : List Int) (p : Proc),
      (∀ k, i ≤ k → k < i + n → 0 < env.fork k) →
      forkLoop env cmds pipes cc n i pids p
        = ({ fds := p.fds,
             trace := p.trace ++ (List.range' i n).map (fun k => Call.fork (env.fork k)) },
           Sum.inr (pids ++ (List.range' i n).map env.fork)) := by
  induction n with
  | zero => intro i pids p _; simp [forkLoop]
  | succ n ih =>
    intro i pids p h
    have hi : 0 < env.fork i := h i (Nat.le_refl _) (by omega)
    have hne : env.fork i ≠ 0 := by omega
    unfold forkLoop
    simp only [if_neg hne, if_pos hi]
    rw [ih (i + 1) _ _ (fun k h1 h2 => h k (by omega) (by omega))]
    simp [Proc.emit, List.range'_succ]

/-- In the child of stage `m` the loop makes the forks `i .. m` and then runs
the child code. -/
theorem forkLoop_child (env : Env) (cmds : Table) (pipes : List (Nat × Nat)) (cc n : Nat) :
    ∀ (i m : Nat) (pids : List Int) (p : Proc),
      i ≤ m → m < i + n → (∀ k, i ≤ k → k < m → 0 < env.fork k) → env.fork m = 0 →
      forkLoop env cmds pipes cc n i pids p
        = ((child env cmds pipes cc m
              { fds := p.fds,
                trace := p.trace ++
                  (List.range' i (m - i + 1)).map (fun k => Call.fork (env.fork k)) }).1,
           Sum.inl (child env cmds pipes cc m
              { fds := p.fds,
                trace := p.trace ++
                  (List.range' i (m - i + 1)).map (fun k => Call.fork (env.fork k)) }).2) := by
  induction n with
  | zero => intro i m pids p h1 h2; omega
  | succ n ih =>
    intro i m pids p h1 h2 hpos hzero
    unfold forkLoop
    by_cases him : i = m
    · subst him
      simp [hzero, Proc.emit]
    · have hi : 0 < env.fork i := hpos i (Nat.le_refl _) (by omega)
      have hne : env.fork i ≠ 0 := by omega
      simp only [if_neg hne, if_pos hi]
      rw [ih (i + 1) m _ _ (by omega) (by omega) (fun k h3 h4 => hpos k (by omega) h4) hzero]
      have : m - i + 1 = (m - (i + 1) + 1) + 1 := by omega
      rw [this, forkCalls_succ env i (m - (i + 1) + 1)]
      simp [Proc.emit]

/-- When `fork` fails at stage `m` the loop makes the forks `i .. m`, writes
`fork failure` and calls `exit(EXIT_FAILURE)`. -/
theorem forkLoop_failure (env : Env) (cmds : Table) (pipes : List (Nat × Nat)) (cc n : Nat) :
    ∀ (i m : Nat) (pids : List Int) (p : Proc),
      i ≤ m → m < i + n → (∀ k, i ≤ k → k < m → 0 < env.fork k) → env.fork m < 0 →
      forkLoop env cmds pipes cc n i pids p
        = ({ fds := p.fds,
             trace := p.trace ++
               (List.range' i (m - i + 1)).map (fun k => Call.fork (env.fork k)) ++
               [Call.stderr Diag.forkFailure] },
           Sum.inl (Outcome.exited EXIT_FAILURE)) := by
  induction n with
  | zero => intro i m pids p h1 h2; omega
  | succ n ih =>
    intro i m pids p h1 h2 hpos hneg
    unfold forkLoop
    by_cases him : i = m
    · subst him
      have hne : env.fork i ≠ 0 := by omega
      have hnp : ¬ 0 < env.fork i := by omega
      simp [hne, hnp, Proc.emit]
    · have hi : 0 < env.fork i := hpos i (Nat.le_refl _) (by omega)
      have hne : env.fork i ≠ 0 := by omega
      simp only [if_neg hne, if_pos hi]
      rw [ih (i + 1) m _ _ (by omega) (by omega) (fun k h3 h4 => hpos k (by omega) h4) hneg]
      have : m - i + 1 = (m - (i + 1) + 1) + 1 := by omega
      rw [this, forkCalls_succ env i (m - (i + 1) + 1)]
      simp [Proc.emit]

/-! ## The shell: pipes, forks, closes, waits -/

theorem createPipes_ok (env : Env) (n k : Nat) (p : Proc) (hk : env.pipeOk k = true) :
    createPipes env (n + 1) k p
      = ((createPipes env n (k + 1) (p.pipe k).1).1,
         (p.pipe k).2 :: (createPipes env n (k + 1) (p.pipe k).1).2) := by
  simp [createPipes, hk]

theorem createPipes_failed (env : Env) (n k : Nat) (p : Proc) (hk : env.pipeOk k = false) :
    createPipes env (n + 1) k p
      = ((createPipes env n (k + 1) (p.emit Call.pipeFailed)).1,
         env.junk k :: (createPipes env n (k + 1) (p.emit Call.pipeFailed)).2) := by
  simp [createPipes, hk]

/-- The loop that creates the pipes makes one `pipe` call per pipe and
nothing else. -/
theorem createPipes_calls (env : Env) (n : Nat) :
    ∀ (k : Nat) (p : Proc),
      (∃ calls, (createPipes env n k p).1.trace = p.trace ++ calls ∧ calls.length = n ∧
        ∀ c ∈ calls, c.isPipe = true) ∧
      (createPipes env n k p).2.length = n := by
  induction n with
  | zero => intro k p; exact ⟨⟨[], by simp [createPipes]⟩, rfl⟩
  | succ n ih =>
    intro k p
    cases hk : env.pipeOk k with
    | true =>
      obtain ⟨⟨calls, h1, h2, h3⟩, h4⟩ := ih (k + 1) (p.pipe k).1
      rw [createPipes_ok env n k p hk]
      refine ⟨⟨Call.pipe (p.pipe k).2.1 (p.pipe k).2.2 :: calls, ?_, by simp [h2], ?_⟩, ?_⟩
      · show (createPipes env n (k + 1) (p.pipe k).1).1.trace = _
        rw [h1]
        simp [Proc.pipe]
      · intro c hc
        rcases List.mem_cons.1 hc with h | h
        · subst h; rfl
        · exact h3 c h
      · simp [h4]
    | false =>
      obtain ⟨⟨calls, h1, h2, h3⟩, h4⟩ := ih (k + 1) (p.emit Call.pipeFailed)
      rw [createPipes_failed env n k p hk]
      refine ⟨⟨Call.pipeFailed :: calls, ?_, by simp [h2], ?_⟩, ?_⟩
      · show (createPipes env n (k + 1) (p.emit Call.pipeFailed)).1.trace = _
        rw [h1]
        simp [Proc.emit]
      · intro c hc
        rcases List.mem_cons.1 hc with h | h
        · subst h; rfl
        · exact h3 c h
      · simp [h4]

/-- The calls made while the pipes are created. -/
theorem afterPipes_calls (env : Env) (argv : List String) :
    (afterPipes env argv).trace.length = (split argv).cmd_count - 1 ∧
    ∀ c ∈ (afterPipes env argv).trace, c.isPipe = true := by
  obtain ⟨⟨calls, h1, h2, h3⟩, _⟩ :=
    createPipes_calls env ((split argv).cmd_count - 1) 0 ⟨env.fds0, []⟩
  unfold afterPipes
  rw [h1]
  simpa [h2] using h3

theorem closePipes_eq (pipes : List (Nat × Nat)) :
    ∀ p : Proc, (closePipes pipes p).trace = p.trace ++ closeCalls pipes := by
  induction pipes with
  | nil => intro p; simp [closePipes, closeCalls]
  | cons pr more ih =>
    intro p
    obtain ⟨r, w⟩ := pr
    simp [closePipes, closeCalls, ih, Proc.close]

theorem waitChild_status (env : Env) (pid : Int) (sts : List Int) :
    ∀ p : Proc, (waitChild env pid sts p).2 = env.terminalStatus sts := by
  induction sts with
  | nil => intro p; rfl
  | cons st later ih =>
    intro p
    unfold waitChild
    simp only []
    by_cases h : (env.WIFEXITED st || env.WIFSIGNALED st) = true
    · rw [if_pos h]
      simp [Env.terminalStatus, List.find?, Env.terminal, h]
    · rw [if_neg h, ih]
      simp [Env.terminalStatus, List.find?, Env.terminal, h]

theorem waitChild_mono (env : Env) (pid : Int) (sts : List Int) :
    ∀ (p : Proc) (c : Call), c ∈ p.trace → c ∈ (waitChild env pid sts p).1.trace := by
  induction sts with
  | nil => intro p c hc; simpa [waitChild] using hc
  | cons st later ih =>
    intro p c hc
    have h1 : c ∈ (p.emit (Call.waitpid pid st)).trace := by simp [Proc.emit, hc]
    unfold waitChild
    simp only []
    split
    · exact h1
    · exact ih _ c h1

/-- The wait loop of one child makes the `waitpid` call that returns its
terminal status. -/
theorem waitChild_waits (env : Env) (pid : Int) (sts : List Int) :
    ∀ (p : Proc) (st : Int), env.terminalStatus sts = some st →
      Call.waitpid pid st ∈ (waitChild env pid sts p).1.trace := by
  induction sts with
  | nil => intro p st h; simp [Env.terminalStatus] at h
  | cons s later ih =>
    intro p st h
    unfold waitChild
    simp only []
    by_cases ht : (env.WIFEXITED s || env.WIFSIGNALED s) = true
    · rw [if_pos ht]
      have : s = st := by
        simpa [Env.terminalStatus, List.find?, Env.terminal, ht] using h
      subst this
      simp [Proc.emit]
    · rw [if_neg ht]
      refine ih _ st ?_
      simpa [Env.terminalStatus, List.find?, Env.terminal, ht] using h

theorem waitLoop_mono (env : Env) (pids : List Int) :
    ∀ (i : Nat) (es : Option Int) (p : Proc) (c : Call), c ∈ p.trace →
      c ∈ (waitLoop env pids i es p).1.trace := by
  induction pids with
  | nil => intro i es p c hc; cases es <;> simpa [waitLoop] using hc
  | cons pid pids ih =>
    intro i es p c hc
    have h := waitChild_mono env pid (env.waits i) p c hc
    unfold waitLoop
    split
    · rename_i p1 heq
      rw [heq] at h
      exact h
    · rename_i p1 st heq
      rw [heq] at h
      exact ih _ _ _ c h

/-- When every child reaches a terminal status, the wait loop returns the
`WEXITSTATUS` of the last child's terminal status and has made, for every
child, the `waitpid` call that returned its terminal status. -/
theorem waitLoop_returns (env : Env) (pids : List Int) :
    ∀ (i : Nat) (es : Option Int) (p : Proc), pids ≠ [] →
      (∀ k, k < pids.length → ∃ st, env.terminalStatus (env.waits (i + k)) = some st) →
      (∃ st, env.terminalStatus (env.waits (i + (pids.length - 1))) = some st ∧
        (waitLoop env pids i es p).2 = Outcome.returned (env.WEXITSTATUS st)) ∧
      (∀ k, k < pids.length → ∀ st, env.terminalStatus (env.waits (i + k)) = some st →
        Call.waitpid (getAt 0 pids k) st ∈ (waitLoop env pids i es p).1.trace) := by
  induction pids with
  | nil => intro i es p h; exact absurd rfl h
  | cons pid pids ih =>
    intro i es p _ hterm
    obtain ⟨st0, hst0⟩ := hterm 0 (by simp)
    rw [Nat.add_zero] at hst0
    have hw := waitChild_status env pid (env.waits i) p
    have hc := waitChild_waits env pid (env.waits i) p st0 hst0
    rw [hst0] at hw
    unfold waitLoop
    split
    · rename_i p1 heq
      rw [heq] at hw
      cases hw
    · rename_i p1 st heq
      rw [heq] at hw hc
      simp only [Option.some.injEq] at hw
      subst hw
      by_cases hp : pids = []
      · subst hp
        refine ⟨⟨st, by simpa using hst0, by simp [waitLoop]⟩, ?_⟩
        intro k hk s hs
        have hk0 : k = 0 := by simpa using hk
        subst hk0
        rw [Nat.add_zero, hst0] at hs
        simp only [Option.some.injEq] at hs
        subst hs
        simpa [waitLoop, getAt] using hc
      · have hterm2 : ∀ k, k < pids.length →
            ∃ s, env.terminalStatus (env.waits (i + 1 + k)) = some s := by
          intro k hk
          have := hterm (k + 1) (by simpa using hk)
          rwa [show i + (k + 1) = i + 1 + k by omega] at this
        obtain ⟨⟨s, hs1, hs2⟩, hall⟩ := ih (i + 1) (some (env.WEXITSTATUS st)) p1 hp hterm2
        have hlen : 0 < pids.length := List.length_pos.2 hp
        refine ⟨⟨s, ?_, hs2⟩, ?_⟩
        · rw [← hs1]
          congr 2
          simp only [List.length_cons]
          omega
        · intro k hk s2 hs2k
          cases k with
          | zero =>
            rw [Nat.add_zero, hst0] at hs2k
            simp only [Option.some.injEq] at hs2k
            subst hs2k
            exact waitLoop_mono env pids _ _ p1 _ hc
          | succ k =>
            refine hall k (by simpa using hk) s2 ?_
            rwa [show i + (k + 1) = i + 1 + k by omega] at hs2k

theorem external_ok (env : Env) (argv : List String) (hne : argv ≠ [])
    (hfirst : argv.head? ≠ some "|") (hlast : argv.getLast? ≠ some "|") :
    external env argv = supervise env argv ⟨env.fds0, []⟩ := by
  obtain ⟨first, hf⟩ : ∃ first, argv.head? = some first := by
    cases hg : argv.head? with
    | none => exact absurd (List.head?_eq_none_iff.1 hg) hne
    | some l => exact ⟨l, rfl⟩
  obtain ⟨last, hl⟩ : ∃ last, argv.getLast? = some last := by
    cases hg : argv.getLast? with
    | none => exact absurd (List.getLast?_eq_none_iff.1 hg) hne
    | some l => exact ⟨l, rfl⟩
  have hfp : first ≠ "|" := fun h => hfirst (by rw [hf, h])
  have hlp : last ≠ "|" := fun h => hlast (by rw [hl, h])
  simp [external, hf, hl, hfp, hlp]

/-- The pipes `supervise` creates and the state it forks from. -/
theorem supervise_parent (env : Env) (argv : List String) (p : Proc)
    (hfork : ∀ k, k < (split argv).cmd_count → 0 < env.fork k) :
    supervise env argv p
      = waitLoop env ((List.range' 0 (split argv).cmd_count).map env.fork) 0 none
          (closePipes (createPipes env ((split argv).cmd_count - 1) 0 p).2
            { fds := (createPipes env ((split argv).cmd_count - 1) 0 p).1.fds,
              trace := (createPipes env ((split argv).cmd_count - 1) 0 p).1.trace
                ++ forkCalls env (split argv).cmd_count }) := by
  unfold supervise
  simp only []
  rw [forkLoop_parent env _ _ _ _ 0 [] _ (fun k _ h2 => hfork k (by omega))]
  simp [forkCalls]

theorem supervise_failure (env : Env) (argv : List String) (p : Proc) (k : Nat)
    (hk : k < (split argv).cmd_count) (hpos : ∀ j, j < k → 0 < env.fork j)
    (hneg : env.fork k < 0) :
    supervise env argv p
      = ({ fds := (createPipes env ((split argv).cmd_count - 1) 0 p).1.fds,
           trace := (createPipes env ((split argv).cmd_count - 1) 0 p).1.trace
             ++ forkCalls env (k + 1) ++ [Call.stderr Diag.forkFailure] },
         Outcome.exited EXIT_FAILURE) := by
  unfold supervise
  simp only []
  rw [forkLoop_failure env _ _ _ _ 0 k [] _ (Nat.zero_le _) (by omega)
    (fun j _ h2 => hpos j h2) hneg]
  simp [forkCalls]

/-! ## Aggregate status (lines 194-204) -/

/-- C2: when every stage is spawned (each `fork` returns a pid) and every
stage reaches a terminal wait status, `external` returns `WEXITSTATUS` of the
terminal status of the last stage; a run that differs only in the statuses
reported for the earlier stages returns the same value. -/
theorem external_status (env : Env) (argv : List String) (hne : argv ≠ [])
    (hfirst : argv.head? ≠ some "|") (hlast : argv.getLast? ≠ some "|")
    (hfork : ∀ k, k < (split argv).cmd_count → 0 < env.fork k)
    (hterm : ∀ k, k < (split argv).cmd_count →
      (env.terminalStatus (env.waits k)).isSome = true) :
    (∃ st, env.terminalStatus (env.waits ((split argv).cmd_count - 1)) = some st ∧
      (external env argv).2 = Outcome.returned (env.WEXITSTATUS st)) ∧
    (∀ waits2 : Nat → List Int,
      waits2 ((split argv).cmd_count - 1) = env.waits ((split argv).cmd_count - 1) →
      (∀ k, k < (split argv).cmd_count →
        (env.terminalStatus (waits2 k)).isSome = true) →
      (external { env with waits := waits2 } argv).2 = (external env argv).2) := by
  have hcc : 0 < (split argv).cmd_count := by
    rw [split_cmd_count]
    exact List.length_pos.2 (chunks_ne_nil argv [])
  have key : ∀ e : Env, (∀ k, k < (split argv).cmd_count → 0 < e.fork k) →
      (∀ k, k < (split argv).cmd_count → (e.terminalStatus (e.waits k)).isSome = true) →
      ∃ st, e.terminalStatus (e.waits ((split argv).cmd_count - 1)) = some st ∧
        (external e argv).2 = Outcome.returned (e.WEXITSTATUS st) := by
    intro e hf ht
    rw [external_ok e argv hne hfirst hlast, supervise_parent e argv _ hf]
    have hlen : ((List.range' 0 (split argv).cmd_count).map e.fork).length
        = (split argv).cmd_count := by simp
    have hnil : (List.range' 0 (split argv).cmd_count).map e.fork ≠ [] := by
      intro h
      rw [h] at hlen
      simp at hlen
      omega
    have := (waitLoop_returns e _ 0 none
      (closePipes (createPipes e ((split argv).cmd_count - 1) 0 ⟨e.fds0, []⟩).2
        { fds := (createPipes e ((split argv).cmd_count - 1) 0 ⟨e.fds0, []⟩).1.fds,
          trace := (createPipes e ((split argv).cmd_count - 1) 0 ⟨e.fds0, []⟩).1.trace
            ++ forkCalls e (split argv).cmd_count }) hnil
      (by
        intro k hk
        rw [hlen] at hk
        simpa using Option.isSome_iff_exists.1 (ht k hk))).1
    rw [hlen] at this
    simpa using this
  refine ⟨key env hfork hterm, ?_⟩
  intro waits2 hsame hterm2
  obtain ⟨st, h1, h2⟩ := key env hfork hterm
  obtain ⟨st2, h3, h4⟩ := key { env with waits := waits2 } hfork hterm2
  rw [h2, h4]
  have : st2 = st := by
    have h5 : env.terminalStatus (waits2 ((split argv).cmd_count - 1)) = some st2 := h3
    rw [hsame, h1] at h5
    exact (Option.some.inj h5).symm
  rw [this]

theorem external_status_witness :
    (external Env.sample ["ls", "|", "grep", "x", "|", "wc"]).2 = Outcome.returned 2 ∧
    (external { Env.sample with waits := fun i => if i = 2 then [0x137f, 512] else [9] }
      ["ls", "|", "grep", "x", "|", "wc"]).2
      = (external Env.sample ["ls", "|", "grep", "x", "|", "wc"]).2 :=
  ⟨by decide,
   (external_status Env.sample ["ls", "|", "grep", "x", "|", "wc"] (by decide) (by decide)
      (by decide) (by decide) (by decide)).2
      (fun i => if i = 2 then [0x137f, 512] else [9]) (by decide) (by decide)⟩

/-! ## Failure of `fork` (lines 182-185) -/

theorem isPipe_not_waitpid (c : Call) (h : c.isPipe = true) (pid st : Int) :
    c ≠ Call.waitpid pid st := by
  intro he
  subst he
  cases h

theorem forkCalls_not_waitpid (env : Env) (n : Nat) (pid st : Int) :
    Call.waitpid pid st ∉ forkCalls env n := by
  simp [forkCalls]

/-- C6 (as the code has it): when `fork` fails at stage `k` after stages
`0 .. k-1` were spawned, `external` writes `fork failure`, makes no further
`fork` and no `waitpid` at all, and calls `exit(EXIT_FAILURE)`: the process
that runs the shell loop ends inside that line and runs no later line. -/
theorem external_fork_failure (env : Env) (argv : List String) (k : Nat) (hne : argv ≠ [])
    (hfirst : argv.head? ≠ some "|") (hlast : argv.getLast? ≠ some "|")
    (hk : k < (split argv).cmd_count) (hpos : ∀ j, j < k → 0 < env.fork j)
    (hneg : env.fork k < 0) :
    (external env argv).2 = Outcome.exited EXIT_FAILURE ∧
    (external env argv).1.trace
      = (afterPipes env argv).trace ++ forkCalls env (k + 1)
          ++ [Call.stderr Diag.forkFailure] ∧
    (afterPipes env argv).trace.length = (split argv).cmd_count - 1 ∧
    (∀ c ∈ (afterPipes env argv).trace, c.isPipe = true) ∧
    (∀ pid st, Call.waitpid pid st ∉ (external env argv).1.trace) ∧
    Diag.forkFailure.render = "fork failure" ∧
    (∀ (b : Builtins) (envs : Nat → Env) (tokens : List String) (later : List (List String))
      (line : Nat) (last_status : Int),
      envs line = env → substStatus last_status tokens = argv →
      argv.head? ≠ some "cd" → argv.head? ≠ some "pwd" → argv.head? ≠ some "exit" →
      mainLoop b envs (tokens :: later) line last_status
        = ShellEnd.ended line (Outcome.exited EXIT_FAILURE)) := by
  have h := supervise_failure env argv ⟨env.fds0, []⟩ k hk hpos hneg
  rw [← external_ok env argv hne hfirst hlast] at h
  have h2 : (external env argv).2 = Outcome.exited EXIT_FAILURE := by rw [h]
  have h1 : (external env argv).1.trace
      = (afterPipes env argv).trace ++ forkCalls env (k + 1)
          ++ [Call.stderr Diag.forkFailure] := by
    rw [h]
    rfl
  obtain ⟨hlen, hpipe⟩ := afterPipes_calls env argv
  refine ⟨h2, h1, hlen, hpipe, ?_, rfl, ?_⟩
  · intro pid st hm
    rw [h1] at hm
    simp only [List.mem_append, List.mem_singleton] at hm
    rcases hm with (hm | hm) | hm
    · exact isPipe_not_waitpid _ (hpipe _ hm) pid st rfl
    · exact forkCalls_not_waitpid env _ pid st hm
    · cases hm
  · intro b envs tokens later line last_status henv hsub hcd hpwd hexit
    cases hargv : argv with
    | nil => exact absurd hargv hne
    | cons name args =>
      rw [hargv] at hcd hpwd hexit hsub
      have hcd2 : name ≠ "cd" := by simpa using hcd
      have hpwd2 : name ≠ "pwd" := by simpa using hpwd
      have hexit2 : name ≠ "exit" := by simpa using hexit
      unfold mainLoop
      rw [hsub]
      simp only [if_neg hcd2, if_neg hpwd2, if_neg hexit2, henv]
      rw [← hargv, h2]

theorem external_fork_failure_witness :
    (external Env.forkFails ["ls", "|", "wc"]).2 = Outcome.exited EXIT_FAILURE ∧
    mainLoop Builtins.sample (fun _ => Env.forkFails) [["ls", "|", "wc"], ["pwd"]] 0 0
      = ShellEnd.ended 0 (Outcome.exited EXIT_FAILURE) :=
  ⟨(external_fork_failure Env.forkFails ["ls", "|", "wc"] 1 (by decide) (by decide)
      (by decide) (by decide) (by decide) (by decide)).1,
   (external_fork_failure Env.forkFails ["ls", "|", "wc"] 1 (by decide) (by decide)
      (by decide) (by decide) (by decide) (by decide)).2.2.2.2.2.2
      Builtins.sample (fun _ => Env.forkFails) ["ls", "|", "wc"] [["pwd"]] 0 0 rfl
      (by decide) (by decide) (by decide) (by decide)⟩

/-- C6 (counterexample): on `ls | wc` with `fork` failing for the second
stage, the calls of `external` are one `pipe`, the two `fork`s and the
`fork failure` line, with no `waitpid` for the first stage (pid 100), and the
process exits with status 1 instead of returning; the shell loop ends on that
line and never runs the next one. -/
theorem external_fork_failure_exits :
    (external Env.forkFails ["ls", "|", "wc"]).1.trace
      = [Call.pipe 3 4, Call.fork 100, Call.fork (-1), Call.stderr Diag.forkFailure] ∧
    (external Env.forkFails ["ls", "|", "wc"]).2 = Outcome.exited 1 ∧
    mainLoop Builtins.sample (fun _ => Env.forkFails) [["ls", "|", "wc"], ["pwd"]] 0 0
      = ShellEnd.ended 0 (Outcome.exited 1) ∧
    mainLoop Builtins.sample (fun _ => Env.sample) [["ls", "|", "wc"], ["pwd"]] 0 0
      = ShellEnd.endOfInput 0 := by
  decide

/-! ## Descriptor tables -/

theorem fdGet_alloc (t : FdTable) : fdGet t (fdAlloc t) = none := by
  induction t with
  | nil => rfl
  | cons d t ih =>
    cases d with
    | none => rfl
    | some d => simpa [fdAlloc, fdGet, getAt] using ih

theorem fdGet_set_same (t : FdTable) (fd : Nat) (v : Option Desc) :
    fdGet (setAt none t fd v) fd = v :=
  getAt_setAt_same none t fd v

theorem fdGet_set_ne (t : FdTable) (fd other : Nat) (v : Option Desc) (h : fd ≠ other) :
    fdGet (setAt none t fd v) other = fdGet t other :=
  getAt_setAt_ne none t fd other v h

/-- A descriptor that is open is not the one `fdAlloc` returns. -/
theorem alloc_ne_open (t : FdTable) (fd : Nat) (h : (fdGet t fd).isSome = true) :
    fdAlloc t ≠ fd := by
  intro he
  rw [← he, fdGet_alloc] at h
  cases h

theorem dup2_fds (p : Proc) (a b : Nat) (d : Desc) (h : fdGet p.fds a = some d) :
    (p.dup2 a b).fds = setAt none p.fds b (some d) := by
  simp [Proc.dup2, h]

theorem close_fds_ne (p : Proc) (fd other : Nat) (h : fd ≠ other) :
    fdGet (p.close fd).fds other = fdGet p.fds other := by
  unfold Proc.close
  simp only []
  split
  · rfl
  · exact fdGet_set_ne _ _ _ _ h

theorem closePipes_fds (pipes : List (Nat × Nat)) :
    ∀ (p : Proc) (fd : Nat), fd ∉ pipeFds pipes →
      fdGet (closePipes pipes p).fds fd = fdGet p.fds fd := by
  induction pipes with
  | nil => intro p fd _; rfl
  | cons pr more ih =>
    intro p fd h
    obtain ⟨r, w⟩ := pr
    simp only [pipeFds, List.flatMap_cons, List.mem_append, List.mem_cons, List.mem_singleton,
      List.not_mem_nil, or_false, not_or] at h
    obtain ⟨⟨h1, h2⟩, h3⟩ := h
    simp only [closePipes]
    rw [ih _ fd h3, close_fds_ne _ w fd (Ne.symm h2), close_fds_ne _ r fd (Ne.symm h1)]

theorem pipe_spec (p : Proc) (k : Nat) :
    fdGet p.fds (p.pipe k).2.1 = none ∧
    fdGet p.fds (p.pipe k).2.2 = none ∧
    fdGet (p.pipe k).1.fds (p.pipe k).2.1 = some (Desc.pipeRead k) ∧
    fdGet (p.pipe k).1.fds (p.pipe k).2.2 = some (Desc.pipeWrite k) ∧
    ∀ fd, (fdGet p.fds fd).isSome = true → fdGet (p.pipe k).1.fds fd = fdGet p.fds fd := by
  have hr : fdGet (setAt none p.fds (fdAlloc p.fds) (some (Desc.pipeRead k))) (fdAlloc p.fds)
      = some (Desc.pipeRead k) := fdGet_set_same _ _ _
  have hwr : fdAlloc (setAt none p.fds (fdAlloc p.fds) (some (Desc.pipeRead k)))
      ≠ fdAlloc p.fds := alloc_ne_open _ _ (by rw [hr]; rfl)
  have hw := fdGet_alloc (setAt none p.fds (fdAlloc p.fds) (some (Desc.pipeRead k)))
  refine ⟨fdGet_alloc _, ?_, ?_, ?_, ?_⟩
  · rw [fdGet_set_ne _ _ _ _ (Ne.symm hwr)] at hw
    exact hw
  · show fdGet (setAt none _ _ _) (fdAlloc p.fds) = _
    rw [fdGet_set_ne _ _ _ _ hwr]
    exact hr
  · exact fdGet_set_same _ _ _
  · intro fd hfd
    have h1 : fdAlloc p.fds ≠ fd := alloc_ne_open _ _ hfd
    have h2 : fdGet (setAt none p.fds (fdAlloc p.fds) (some (Desc.pipeRead k))) fd
        = fdGet p.fds fd := fdGet_set_ne _ _ _ _ h1
    have h3 : fdAlloc (setAt none p.fds (fdAlloc p.fds) (some (Desc.pipeRead k))) ≠ fd :=
      alloc_ne_open _ _ (by rw [h2]; exact hfd)
    show fdGet (setAt none _ _ _) _ = _
    rw [fdGet_set_ne _ _ _ _ h3, h2]

/-- After the pipes are created, all `pipe` calls succeeding: descriptors
open before are untouched, `pipes[m]` holds the two ends of pipe `k + m`, and
no pipe descriptor was open before. -/
theorem createPipes_fds (env : Env) (n : Nat) :
    ∀ (k : Nat) (p : Proc), (∀ m, m < n → env.pipeOk (k + m) = true) →
      (∀ fd, (fdGet p.fds fd).isSome = true →
        fdGet (createPipes env n k p).1.fds fd = fdGet p.fds fd) ∧
      (∀ m, m < n →
        fdGet (createPipes env n k p).1.fds (pipeAt (createPipes env n k p).2 m).1
          = some (Desc.pipeRead (k + m)) ∧
        fdGet (createPipes env n k p).1.fds (pipeAt (createPipes env n k p).2 m).2
          = some (Desc.pipeWrite (k + m))) ∧
      (∀ fd, fd ∈ pipeFds (createPipes env n k p).2 → fdGet p.fds fd = none) := by
  induction n with
  | zero =>
    intro k p _
    refine ⟨fun fd _ => rfl, fun m hm => absurd hm (Nat.not_lt_zero _), ?_⟩
    intro fd hfd
    simp [createPipes, pipeFds] at hfd
  | succ n ih =>
    intro k p hok
    obtain ⟨s1, s2, s3, s4, s5⟩ := pipe_spec p k
    obtain ⟨i1, i2, i3⟩ := ih (k + 1) (p.pipe k).1
      (fun m hm => by
        have := hok (m + 1) (by omega)
        rwa [show k + (m + 1) = k + 1 + m by omega] at this)
    rw [createPipes_ok env n k p (by simpa using hok 0 (Nat.succ_pos _))]
    refine ⟨?_, ?_, ?_⟩
    · intro fd hfd
      show fdGet (createPipes env n (k + 1) (p.pipe k).1).1.fds fd = _
      rw [i1 fd (by rw [s5 fd hfd]; exact hfd), s5 fd hfd]
    · intro m hm
      cases m with
      | zero =>
        simp only [pipeAt, getAt, Nat.add_zero]
        rw [i1 _ (by rw [s3]; rfl), i1 _ (by rw [s4]; rfl)]
        exact ⟨s3, s4⟩
      | succ m =>
        have := i2 m (by omega)
        simp only [pipeAt, getAt] at this ⊢
        rwa [show k + 1 + m = k + (m + 1) by omega] at this
    · intro fd hfd
      simp only [pipeFds, List.flatMap_cons, List.mem_append, List.mem_cons,
        List.mem_singleton, List.not_mem_nil, or_false] at hfd
      rcases hfd with (h | h) | h
      · rw [h]; exact s1
      · rw [h]; exact s2
      · have h1 := i3 fd h
        cases hp : fdGet p.fds fd with
        | none => rfl
        | some d =>
          have := s5 fd (by rw [hp]; rfl)
          rw [h1, hp] at this
          cases this

theorem pipeAt_mem (pipes : List (Nat × Nat)) :
    ∀ m, m < pipes.length →
      (pipeAt pipes m).1 ∈ pipeFds pipes ∧ (pipeAt pipes m).2 ∈ pipeFds pipes := by
  induction pipes with
  | nil => intro m hm; exact absurd hm (Nat.not_lt_zero _)
  | cons pr more ih =>
    intro m hm
    cases m with
    | zero => simp [pipeAt, getAt, pipeFds]
    | succ m =>
      have := ih m (by simpa using hm)
      simp only [pipeAt, getAt, pipeFds, List.flatMap_cons, List.mem_append] at this ⊢
      exact ⟨Or.inr this.1, Or.inr this.2⟩

/-- Lines 129-138: what descriptors 0 and 1 of the child of stage `i` refer
to once the pipes are connected and closed. -/
theorem childPipes_fds (pipes : List (Nat × Nat)) (cc i : Nat) (p : Proc)
    (h0 : 0 ∉ pipeFds pipes) (h1 : 1 ∉ pipeFds pipes) (hlen : pipes.length = cc - 1)
    (hr : 0 < i → fdGet p.fds (pipeAt pipes (i - 1)).1 = some (Desc.pipeRead (i - 1)))
    (hw : i < cc - 1 → fdGet p.fds (pipeAt pipes i).2 = some (Desc.pipeWrite i)) :
    fdGet (childPipes pipes cc i p).fds 0
      = (if 0 < i then some (Desc.pipeRead (i - 1)) else fdGet p.fds 0) ∧
    fdGet (childPipes pipes cc i p).fds 1
      = (if i < cc - 1 then some (Desc.pipeWrite i) else fdGet p.fds 1) := by
  unfold childPipes
  simp only []
  rw [closePipes_fds _ _ 0 h0, closePipes_fds _ _ 1 h1]
  by_cases hi0 : 0 < i
  · have e1 := dup2_fds p _ 0 _ (hr hi0)
    simp only [if_pos hi0]
    by_cases hi1 : i < cc - 1
    · have hne : (pipeAt pipes i).2 ≠ 0 := by
        intro h
        exact h0 (h ▸ (pipeAt_mem pipes i (by omega)).2)
      have e2 : fdGet (p.dup2 (pipeAt pipes (i - 1)).1 0).fds (pipeAt pipes i).2
          = some (Desc.pipeWrite i) := by
        rw [e1, fdGet_set_ne _ _ _ _ (Ne.symm hne)]
        exact hw hi1
      simp only [if_pos hi1]
      rw [dup2_fds _ _ 1 _ e2, e1]
      exact ⟨by rw [fdGet_set_ne _ 1 0 _ (by decide), fdGet_set_same], fdGet_set_same _ _ _⟩
    · simp only [if_neg hi1]
      rw [e1]
      exact ⟨fdGet_set_same _ _ _, fdGet_set_ne _ 0 1 _ (by decide)⟩
  · simp only [if_neg hi0]
    by_cases hi1 : i < cc - 1
    · simp only [if_pos hi1]
      rw [dup2_fds _ _ 1 _ (hw hi1)]
      exact ⟨fdGet_set_ne _ 1 0 _ (by decide), fdGet_set_same _ _ _⟩
    · simp only [if_neg hi1]
      exact ⟨trivial, trivial⟩

/-- Lines 154-167 for one redirection whose `open` succeeds: the slot of its
direction now refers to the file, the other slot is unchanged. -/
theorem redirect_fds (p : Proc) (name : String) (out : Bool) (slot other : Nat)
    (hs : (fdGet p.fds slot).isSome = true) (ho : (fdGet p.fds other).isSome = true)
    (hne : slot ≠ other) :
    fdGet ((((p.openFile name out).1.dup2 (p.openFile name out).2 slot).close
        (p.openFile name out).2)).fds slot = some (Desc.file name out) ∧
    fdGet ((((p.openFile name out).1.dup2 (p.openFile name out).2 slot).close
        (p.openFile name out).2)).fds other = fdGet p.fds other := by
  have a1 : fdAlloc p.fds ≠ slot := alloc_ne_open _ _ hs
  have a2 : fdAlloc p.fds ≠ other := alloc_ne_open _ _ ho
  have e0 : (p.openFile name out).2 = fdAlloc p.fds := rfl
  have e1 : (p.openFile name out).1.fds
      = setAt none p.fds (fdAlloc p.fds) (some (Desc.file name out)) := rfl
  have e2 : fdGet (p.openFile name out).1.fds (fdAlloc p.fds) = some (Desc.file name out) := by
    rw [e1]; exact fdGet_set_same _ _ _
  rw [e0, close_fds_ne _ _ slot a1, close_fds_ne _ _ other a2, dup2_fds _ _ slot _ e2, e1]
  refine ⟨fdGet_set_same _ _ _, ?_⟩
  rw [fdGet_set_ne _ _ _ _ hne, fdGet_set_ne _ _ _ _ a2]

/-! ## The redirection loop on a stage that resolves -/

/-- A stage that resolves: the loop ends normally; the row it leaves reads
(up to the first `NULL`) as the tokens before the first operator, cell 0 is
untouched, and, when descriptors 0 and 1 are open beforehand, each of them
refers afterwards to the file of the last redirection of its direction, or
to what it referred to before when there is none. -/
theorem redirectLoop_clean (env : Env) (n : Nat) :
    ∀ (toks : List String), toks.length ≤ n →
    ∀ (j : Nat) (done tail : List Cell) (p : Proc), done.length = j →
      scansCleanly env j toks = true →
      ∃ p2 row2, redirectLoop env j toks (done ++ rowOf toks tail) p = (p2, some row2) ∧
        argsOf row2 = argsOf (done ++ rowOf (beforeRedirect toks) []) ∧
        getAt Cell.unset row2 0 = getAt Cell.unset (done ++ rowOf toks tail) 0 ∧
        ((fdGet p.fds 0).isSome = true → (fdGet p.fds 1).isSome = true →
          fdGet p2.fds 0 = (match redirectTarget false toks with
            | some name => some (Desc.file name false)
            | none => fdGet p.fds 0) ∧
          fdGet p2.fds 1 = (match redirectTarget true toks with
            | some name => some (Desc.file name true)
            | none => fdGet p.fds 1)) := by
  induction n with
  | zero =>
    intro toks hlen j done tail p _ _
    have : toks = [] := List.length_eq_zero.1 (Nat.le_zero.1 hlen)
    subst this
    exact ⟨p, _, rfl, argsOf_append_null done tail, rfl, fun _ _ => ⟨rfl, rfl⟩⟩
  | succ n ih =>
    intro toks hlen j done tail p hj hclean
    match toks, hlen, hclean with
    | [], _, _ => exact ⟨p, _, rfl, argsOf_append_null done tail, rfl, fun _ _ => ⟨rfl, rfl⟩⟩
    | [tok], _, hclean =>
      have hr : isRedirect tok = false := by simpa [scansCleanly] using hclean
      refine ⟨p, done ++ rowOf [tok] tail, ?_, ?_, rfl, fun _ _ => ⟨rfl, rfl⟩⟩
      · simp [redirectLoop, hr]
      · have h1 := argsOf_append_null (done ++ [Cell.tok tok]) tail
        simp only [List.append_assoc, List.singleton_append] at h1
        simpa [beforeRedirect, hr, rowOf] using h1
    | tok :: name :: rest, hlen, hclean =>
      have hl1 : (name :: rest).length ≤ n := by simpa using hlen
      have hl2 : rest.length ≤ n := by simp at hlen; omega
      by_cases hr : isRedirect tok = true
      · simp only [scansCleanly, hr, if_true, Bool.and_eq_true, bne_iff_ne, ne_eq,
          Option.isNone_iff_eq_none] at hclean
        obtain ⟨⟨hj0, hopen⟩, hrest⟩ := hclean
        have hrow : setAt Cell.unset (done ++ rowOf (tok :: name :: rest) tail) j Cell.null
            = (done ++ [Cell.null, Cell.tok name]) ++ rowOf rest tail := by
          rw [← hj]
          simp only [rowOf, List.map_cons, List.cons_append]
          rw [setAt_append_mid]
          simp
        have htok : tok = ">" ∨ tok = "<" := by simpa [isRedirect] using hr
        rcases htok with hout | hout
        · subst hout
          have hopen2 : env.openErr j name true = none := by simpa using hopen
          obtain ⟨p2, row2, e, a, g, sfd⟩ := ih rest hl2 (j + 2) (done ++ [Cell.null, Cell.tok name]) tail
            (((p.openFile name true).1.dup2 (p.openFile name true).2 1).close
              (p.openFile name true).2) (by simp [hj]) hrest
          refine ⟨p2, row2, ?_, ?_, ?_, ?_⟩
          · rw [redirectLoop]
            simp only [hr, if_true, if_neg hj0, decide_True, hrow, hopen2]
            exact e
          · rw [a]
            simp only [beforeRedirect, List.takeWhile, hr, Bool.not_true, rowOf,
              List.map_nil, List.nil_append, List.append_assoc, List.cons_append]
            exact argsOf_append_null done _
          · rw [g, ← hrow, getAt_setAt_ne Cell.unset _ j 0 Cell.null hj0]
          · intro h0 h1
            obtain ⟨f1, f2⟩ := redirect_fds p name true 1 0 h1 h0 (by decide)
            obtain ⟨s0, s1⟩ := sfd (by rw [f2]; exact h0) (by rw [f1]; rfl)
            constructor
            · rw [s0, f2]
              simp only [redirectTarget, hr, if_true, decide_True]
              cases redirectTarget false rest <;> simp
            · rw [s1, f1]
              simp only [redirectTarget, hr, if_true, decide_True]
              cases redirectTarget true rest <;> simp
        · subst hout
          have hd : decide ("<" = ">") = false := by decide
          have hopen2 : env.openErr j name false = none := by simpa using hopen
          obtain ⟨p2, row2, e, a, g, sfd⟩ := ih rest hl2 (j + 2) (done ++ [Cell.null, Cell.tok name]) tail
            (((p.openFile name false).1.dup2 (p.openFile name false).2 0).close
              (p.openFile name false).2) (by simp [hj]) hrest
          refine ⟨p2, row2, ?_, ?_, ?_, ?_⟩
          · rw [redirectLoop]
            simp only [hr, if_true, if_neg hj0, hd, hrow, hopen2, Bool.false_eq_true, if_false]
            exact e
          · rw [a]
            simp only [beforeRedirect, List.takeWhile, hr, Bool.not_true, rowOf,
              List.map_nil, List.nil_append, List.append_assoc, List.cons_append]
            exact argsOf_append_null done _
          · rw [g, ← hrow, getAt_setAt_ne Cell.unset _ j 0 Cell.null hj0]
          · intro h0 h1
            obtain ⟨f1, f2⟩ := redirect_fds p name false 0 1 h0 h1 (by decide)
            obtain ⟨s0, s1⟩ := sfd (by rw [f1]; rfl) (by rw [f2]; exact h1)
            constructor
            · rw [s0, f1]
              simp only [redirectTarget, hr, if_true, hd]
              cases redirectTarget false rest <;> simp
            · rw [s1, f2]
              simp only [redirectTarget, hr, if_true, hd]
              cases redirectTarget true rest <;> simp
      · have hr2 : isRedirect tok = false := by simpa using hr
        simp only [scansCleanly, hr2, Bool.false_eq_true, if_false] at hclean
        have hrow : done ++ rowOf (tok :: name :: rest) tail
            = (done ++ [Cell.tok tok]) ++ rowOf (name :: rest) tail := by
          simp [rowOf]
        obtain ⟨p2, row2, e, a, g, sfd⟩ := ih (name :: rest) hl1 (j + 1)
          (done ++ [Cell.tok tok]) tail p (by simp [hj]) hclean
        refine ⟨p2, row2, ?_, ?_, ?_, ?_⟩
        · rw [redirectLoop]
          simp only [hr2, Bool.false_eq_true, if_false]
          rw [hrow]
          exact e
        · rw [a]
          simp [beforeRedirect, List.takeWhile, hr2, rowOf]
        · rw [g, hrow]
        · intro h0 h1
          obtain ⟨s0, s1⟩ := sfd h0 h1
          constructor
          · rw [s0]
            simp only [redirectTarget, hr2, Bool.false_eq_true, if_false]
          · rw [s1]
            simp only [redirectTarget, hr2, Bool.false_eq_true, if_false]

/-- Passing over a prefix that resolves: the loop on `pre ++ more` from
index `j` continues as the loop on `more` from index `j + pre.length`, and
every call made on the way is plain. -/
theorem redirectLoop_pass (env : Env) (n : Nat) :
    ∀ (pre : List String), pre.length ≤ n →
    ∀ (j : Nat) (done tail : List Cell) (p : Proc) (more : List String),
      done.length = j → scansCleanly env j pre = true →
      ∃ p2 done2, redirectLoop env j (pre ++ more) (done ++ rowOf (pre ++ more) tail) p
          = redirectLoop env (j + pre.length) more (done2 ++ rowOf more tail) p2 ∧
        (∀ c ∈ p2.trace, c ∈ p.trace ∨ c.isPlain = true) := by
  induction n with
  | zero =>
    intro pre hlen j done tail p more _ _
    have : pre = [] := List.length_eq_zero.1 (Nat.le_zero.1 hlen)
    subst this
    exact ⟨p, done, rfl, fun c hc => Or.inl hc⟩
  | succ n ih =>
    intro pre hlen j done tail p more hj hclean
    match pre, hlen, hclean with
    | [], _, _ => exact ⟨p, done, rfl, fun c hc => Or.inl hc⟩
    | [tok], _, hclean =>
      have hr : isRedirect tok = false := by simpa [scansCleanly] using hclean
      refine ⟨p, done ++ [Cell.tok tok], ?_, fun c hc => Or.inl hc⟩
      cases more with
      | nil => simp [redirectLoop, hr, rowOf]
      | cons m ms =>
        have : done ++ rowOf ([tok] ++ m :: ms) tail
            = (done ++ [Cell.tok tok]) ++ rowOf (m :: ms) tail := by
          simp [rowOf]
        rw [this]
        simp [redirectLoop, hr]
    | tok :: name :: rest, hlen, hclean =>
      have hl1 : (name :: rest).length ≤ n := by simpa using hlen
      have hl2 : rest.length ≤ n := by simp at hlen; omega
      have hidx2 : j + (tok :: name :: rest).length = j + 2 + rest.length := by
        simp only [List.length_cons]; omega
      have hidx1 : j + (tok :: name :: rest).length = j + 1 + (name :: rest).length := by
        simp only [List.length_cons]; omega
      by_cases hr : isRedirect tok = true
      · simp only [scansCleanly, hr, if_true, Bool.and_eq_true, bne_iff_ne, ne_eq,
          Option.isNone_iff_eq_none] at hclean
        obtain ⟨⟨hj0, hopen⟩, hrest⟩ := hclean
        have hrow : setAt Cell.unset (done ++ rowOf (tok :: name :: (rest ++ more)) tail) j
              Cell.null
            = (done ++ [Cell.null, Cell.tok name]) ++ rowOf (rest ++ more) tail := by
          rw [← hj]
          simp only [rowOf, List.map_cons, List.cons_append]
          rw [setAt_append_mid]
          simp
        have htok : tok = ">" ∨ tok = "<" := by simpa [isRedirect] using hr
        rcases htok with hout | hout
        · subst hout
          have hopen2 : env.openErr j name true = none := by simpa using hopen
          obtain ⟨p2, done2, e, t⟩ := ih rest hl2 (j + 2)
            (done ++ [Cell.null, Cell.tok name]) tail
            (((p.openFile name true).1.dup2 (p.openFile name true).2 1).close
              (p.openFile name true).2) more (by simp [hj]) hrest
          refine ⟨p2, done2, ?_, ?_⟩
          · rw [hidx2, ← e]
            simp only [List.cons_append]
            rw [redirectLoop]
            simp only [hr, if_true, if_neg hj0, decide_True, hrow, hopen2]
          · intro c hc
            have := close_trace (R := fun c => c ∈ p.trace ∨ c.isPlain = true)
              (fun _ h => Or.inr h) _ (p.openFile name true).2
              (dup2_trace (fun _ h => Or.inr h) _ (p.openFile name true).2 1
                (openFile_trace (fun _ h => Or.inr h) p name true (fun x hx => Or.inl hx)))
            rcases t c hc with h | h
            · exact this c h
            · exact Or.inr h
        · subst hout
          have hd : decide ("<" = ">") = false := by decide
          have hopen2 : env.openErr j name false = none := by simpa using hopen
          obtain ⟨p2, done2, e, t⟩ := ih rest hl2 (j + 2)
            (done ++ [Cell.null, Cell.tok name]) tail
            (((p.openFile name false).1.dup2 (p.openFile name false).2 0).close
              (p.openFile name false).2) more (by simp [hj]) hrest
          refine ⟨p2, done2, ?_, ?_⟩
          · rw [hidx2, ← e]
            simp only [List.cons_append]
            rw [redirectLoop]
            simp only [hr, if_true, if_neg hj0, hd, hrow, hopen2, Bool.false_eq_true, if_false]
          · intro c hc
            have := close_trace (R := fun c => c ∈ p.trace ∨ c.isPlain = true)
              (fun _ h => Or.inr h) _ (p.openFile name false).2
              (dup2_trace (fun _ h => Or.inr h) _ (p.openFile name false).2 0
                (openFile_trace (fun _ h => Or.inr h) p name false (fun x hx => Or.inl hx)))
            rcases t c hc with h | h
            · exact this c h
            · exact Or.inr h
      · have hr2 : isRedirect tok = false := by simpa using hr
        simp only [scansCleanly, hr2, Bool.false_eq_true, if_false] at hclean
        have hrow : done ++ rowOf (tok :: name :: (rest ++ more)) tail
            = (done ++ [Cell.tok tok]) ++ rowOf ((name :: rest) ++ more) tail := by
          simp [rowOf]
        obtain ⟨p2, done2, e, t⟩ := ih (name :: rest) hl1 (j + 1) (done ++ [Cell.tok tok])
          tail p more (by simp [hj]) hclean
        refine ⟨p2, done2, ?_, t⟩
        rw [hidx1, ← e]
        simp only [List.cons_append]
        rw [redirectLoop]
        simp only [hr2, Bool.false_eq_true, if_false]
        rw [hrow]
        simp only [List.cons_append]

/-! ## The child of stage `i` -/

/-- The cells at `cmds[i]` are the tokens the child reads, a `NULL`, and the
cells after it. -/
theorem split_row (argv : List String) (i : Nat) (hi : i < (split argv).cmd_count) :
    ∃ tail, (split argv).cmds.row i = rowOf ((split argv).stage i) tail :=
  nullTerminated_shape _ (split_row_terminated argv i hi)

theorem supervise_child (env : Env) (argv : List String) (i : Nat)
    (hi : i < (split argv).cmd_count) (hpos : ∀ k, k < i → 0 < env.fork k)
    (hz : env.fork i = 0) :
    supervise env argv ⟨env.fds0, []⟩
      = child env (split argv).cmds (pipesOf env argv) (split argv).cmd_count i
          (childStart env argv i) := by
  unfold supervise
  simp only []
  rw [forkLoop_child env _ _ _ _ 0 i [] _ (Nat.zero_le _) (by omega)
    (fun k _ h2 => hpos k h2) hz]
  simp [forkCalls, childStart, pipesOf, afterPipes]

theorem external_child (env : Env) (argv : List String) (i : Nat) (hne : argv ≠ [])
    (hfirst : argv.head? ≠ some "|") (hlast : argv.getLast? ≠ some "|")
    (hi : i < (split argv).cmd_count) (hpos : ∀ k, k < i → 0 < env.fork k)
    (hz : env.fork i = 0) :
    external env argv
      = child env (split argv).cmds (pipesOf env argv) (split argv).cmd_count i
          (childStart env argv i) := by
  rw [external_ok env argv hne hfirst hlast, supervise_child env argv i hi hpos hz]

theorem isPipe_plain (c : Call) (h : c.isPipe = true) : c.isPlain = true := by
  cases c <;> first | rfl | cases h

theorem childStart_plain (env : Env) (argv : List String) (i : Nat) :
    ∀ c ∈ (childStart env argv i).trace, c.isPlain = true := by
  intro c hc
  simp only [childStart, forkCalls, List.mem_append, List.mem_map] at hc
  rcases hc with h | ⟨x, _, rfl⟩
  · exact isPipe_plain c ((afterPipes_calls env argv).2 c h)
  · rfl

/-- The child whose redirection loop ends in `exit`: it never calls
`execvp`. -/
theorem child_exits (env : Env) (argv : List String) (i : Nat)
    (hi : i < (split argv).cmd_count) (q : Proc)
    (h : redirectLoop env 0 ((split argv).stage i) ((split argv).cmds.row i)
      (childPipes (pipesOf env argv) (split argv).cmd_count i (childStart env argv i))
        = (q, none)) :
    child env (split argv).cmds (pipesOf env argv) (split argv).cmd_count i
        (childStart env argv i) = (q, Outcome.exited EXIT_FAILURE) ∧
    ∀ c ∈ q.trace, c.isPlain = true := by
  constructor
  · unfold child
    simp only []
    rw [if_pos (split_row_terminated argv i hi)]
    have : argsOf ((split argv).cmds.row i) = (split argv).stage i := rfl
    rw [this, h]
  · have := redirectLoop_trace (R := fun c => c.isPlain = true) (fun _ h => h) env _
      ((split argv).stage i) (Nat.le_refl _) 0 ((split argv).cmds.row i) _
      (childPipes_trace (fun _ h => h) (pipesOf env argv) (split argv).cmd_count i _
        (childStart_plain env argv i))
    rw [h] at this
    exact this

theorem plain_not_execvp (c : Call) (h : c.isPlain = true) (f : Option String)
    (a : List String) : c ≠ Call.execvp f a := by
  intro he
  subst he
  cases h

theorem fork_mem_forkCalls (env : Env) (n i : Nat) (hi : i < n) :
    Call.fork (env.fork i) ∈ forkCalls env n := by
  simp only [forkCalls, List.mem_map]
  exact ⟨i, by simp [List.mem_range'_1, hi], rfl⟩

/-- In the shell, when every `fork` succeeds, one `fork` call is made per
stage. -/
theorem external_spawns (env : Env) (argv : List String) (hne : argv ≠ [])
    (hfirst : argv.head? ≠ some "|") (hlast : argv.getLast? ≠ some "|")
    (hfork : ∀ k, k < (split argv).cmd_count → 0 < env.fork k) (i : Nat)
    (hi : i < (split argv).cmd_count) :
    Call.fork (env.fork i) ∈ (external env argv).1.trace := by
  rw [external_ok env argv hne hfirst hlast, supervise_parent env argv _ hfork]
  refine waitLoop_mono env _ 0 none _ _ ?_
  rw [closePipes_eq]
  simp only [List.mem_append]
  exact Or.inl (Or.inr (fork_mem_forkCalls env _ i hi))

/-! ## A stage that begins with a redirection operator (lines 146-150) -/

/-- C8 (as the code has it): for a stage whose first token is `<` or `>`,
the shell forks a child for the stage like for any other; that child writes
"syntax error: missing command before" followed by the operator as its last
call and exits with `EXIT_FAILURE`, without ever calling `execvp`. -/
theorem child_operator_first (env : Env) (argv : List String) (i : Nat) (op : String)
    (hne : argv ≠ []) (hfirst : argv.head? ≠ some "|") (hlast : argv.getLast? ≠ some "|")
    (hi : i < (split argv).cmd_count) (hop : ((split argv).stage i).head? = some op)
    (hred : isRedirect op = true) :
    (∀ shell : Env, (∀ k, k < (split argv).cmd_count → 0 < shell.fork k) →
      Call.fork (shell.fork i) ∈ (external shell argv).1.trace) ∧
    ((∀ k, k < i → 0 < env.fork k) → env.fork i = 0 →
      (external env argv).2 = Outcome.exited EXIT_FAILURE ∧
      (external env argv).1.trace.getLast? = some (Call.stderr (Diag.commandBefore op)) ∧
      ∀ f a, Call.execvp f a ∉ (external env argv).1.trace) ∧
    (Diag.commandBefore op).render = "syntax error: missing command before " ++ op ++ "\n" := by
  refine ⟨fun shell hfork => external_spawns shell argv hne hfirst hlast hfork i hi, ?_, rfl⟩
  intro hpos hz
  rw [external_child env argv i hne hfirst hlast hi hpos hz]
  have hloop : redirectLoop env 0 ((split argv).stage i) ((split argv).cmds.row i)
      (childPipes (pipesOf env argv) (split argv).cmd_count i (childStart env argv i))
        = ((childPipes (pipesOf env argv) (split argv).cmd_count i
            (childStart env argv i)).emit (Call.stderr (Diag.commandBefore op)), none) := by
    cases hst : (split argv).stage i with
    | nil => rw [hst] at hop; cases hop
    | cons t rest =>
      rw [hst] at hop
      have : t = op := by simpa using hop
      subst this
      cases rest with
      | nil => simp [redirectLoop, hred]
      | cons name rest => simp [redirectLoop, hred]
  obtain ⟨h1, h2⟩ := child_exits env argv i hi _ hloop
  rw [h1]
  refine ⟨rfl, by simp [Proc.emit], ?_⟩
  intro f a hm
  exact plain_not_execvp _ (h2 _ hm) f a rfl

theorem child_operator_first_witness :
    Call.fork 101 ∈ (external Env.sample ["ls", "|", "<", "in"]).1.trace ∧
    (external (Env.childOf 1) ["ls", "|", "<", "in"]).2 = Outcome.exited EXIT_FAILURE ∧
    (external (Env.childOf 1) ["ls", "|", "<", "in"]).1.trace.getLast?
      = some (Call.stderr (Diag.commandBefore "<")) :=
  ⟨(child_operator_first (Env.childOf 1) ["ls", "|", "<", "in"] 1 "<" (by decide) (by decide)
      (by decide) (by decide) (by decide) (by decide)).1 Env.sample (by decide),
   ((child_operator_first (Env.childOf 1) ["ls", "|", "<", "in"] 1 "<" (by decide) (by decide)
      (by decide) (by decide) (by decide) (by decide)).2.1 (by decide) (by decide)).1,
   ((child_operator_first (Env.childOf 1) ["ls", "|", "<", "in"] 1 "<" (by decide) (by decide)
      (by decide) (by decide) (by decide) (by decide)).2.1 (by decide) (by decide)).2.1⟩

/-- C8 (counterexample): on `< in` the shell makes a `fork` call for the
stage, which returns the pid 100 of a new process, and it is that process
which writes the diagnostic. -/
theorem operator_first_is_forked :
    ((split ["<", "in"]).stage 0).head? = some "<" ∧
    (external Env.sample ["<", "in"]).1.trace
      = [Call.fork 100, Call.waitpid 100 0x137f, Call.waitpid 100 0] ∧
    (external (Env.childOf 0) ["<", "in"]).1.trace
      = [Call.fork 0, Call.stderr (Diag.commandBefore "<")] := by
  decide

/-! ## A redirection that cannot be resolved (lines 153-172) -/

theorem getAt_range_map {β : Type} (pad : β) (f : Nat → β) (n : Nat) :
    ∀ (s k : Nat), k < n → getAt pad ((List.range' s n).map f) k = f (s + k) := by
  induction n with
  | zero => intro s k hk; exact absurd hk (Nat.not_lt_zero _)
  | succ n ih =>
    intro s k hk
    cases k with
    | zero => simp [List.range'_succ, getAt]
    | succ k =>
      have := ih (s + 1) k (by omega)
      simp only [List.range'_succ, List.map_cons, getAt]
      rw [this]
      congr 1
      omega

/-- In the shell, when every `fork` succeeds and every stage reaches a
terminal status, `external` makes for every stage the `waitpid` call that
returns its terminal status, and returns. -/
theorem external_reaps (env : Env) (argv : List String) (hne : argv ≠ [])
    (hfirst : argv.head? ≠ some "|") (hlast : argv.getLast? ≠ some "|")
    (hfork : ∀ k, k < (split argv).cmd_count → 0 < env.fork k)
    (hterm : ∀ k, k < (split argv).cmd_count →
      (env.terminalStatus (env.waits k)).isSome = true) :
    (∀ k, k < (split argv).cmd_count →
      ∃ st, env.terminalStatus (env.waits k) = some st ∧
        Call.waitpid (env.fork k) st ∈ (external env argv).1.trace) ∧
    ∃ status, (external env argv).2 = Outcome.returned status := by
  have hcc : 0 < (split argv).cmd_count := by
    rw [split_cmd_count]
    exact List.length_pos.2 (chunks_ne_nil argv [])
  rw [external_ok env argv hne hfirst hlast, supervise_parent env argv _ hfork]
  have hlen : ((List.range' 0 (split argv).cmd_count).map env.fork).length
      = (split argv).cmd_count := by simp
  have hnil : (List.range' 0 (split argv).cmd_count).map env.fork ≠ [] := by
    intro h
    rw [h] at hlen
    simp at hlen
    omega
  obtain ⟨⟨st, _, hret⟩, hall⟩ := waitLoop_returns env _ 0 none
    (closePipes (createPipes env ((split argv).cmd_count - 1) 0 ⟨env.fds0, []⟩).2
      { fds := (createPipes env ((split argv).cmd_count - 1) 0 ⟨env.fds0, []⟩).1.fds,
        trace := (createPipes env ((split argv).cmd_count - 1) 0 ⟨env.fds0, []⟩).1.trace
          ++ forkCalls env (split argv).cmd_count }) hnil
    (by
      intro k hk
      rw [hlen] at hk
      simpa using Option.isSome_iff_exists.1 (hterm k hk))
  refine ⟨?_, ⟨_, hret⟩⟩
  intro k hk
  obtain ⟨st, hst⟩ := Option.isSome_iff_exists.1 (hterm k hk)
  refine ⟨st, hst, ?_⟩
  have := hall k (by rw [hlen]; exact hk) st (by simpa using hst)
  rwa [getAt_range_map 0 env.fork _ 0 k hk, Nat.zero_add] at this

/-- C9 (as the code has it): in the child of a stage of fewer than 16
tokens `pre ++ op :: rest`, where `pre` is not empty and resolves and `op` is
`<` or `>`: when no token follows `op` the child's last call writes "syntax
error: missing filename after redirect", when the `open` of the name after
`op` fails its last call writes the name and the error text; in both cases
it exits with `EXIT_FAILURE` and never calls `execvp`.  In the shell, when
every `fork` succeeds and every stage terminates, every stage is forked and
waited for and `external` returns. -/
theorem child_redirect_failure (env : Env) (argv : List String) (i : Nat)
    (pre : List String) (op : String) (rest : List String)
    (hne : argv ≠ []) (hfirst : argv.head? ≠ some "|") (hlast : argv.getLast? ≠ some "|")
    (hi : i < (split argv).cmd_count) (hst : (split argv).stage i = pre ++ op :: rest)
    (_hfit : ((split argv).stage i).length < CMD_COLS)
    (hpre : pre ≠ []) (hclean : scansCleanly env 0 pre = true) (hred : isRedirect op = true)
    (hpos : ∀ k, k < i → 0 < env.fork k) (hz : env.fork i = 0) :
    (rest = [] →
      (external env argv).2 = Outcome.exited EXIT_FAILURE ∧
      (external env argv).1.trace.getLast? = some (Call.stderr Diag.missingFilename) ∧
      ∀ f a, Call.execvp f a ∉ (external env argv).1.trace) ∧
    (∀ name tail reason, rest = name :: tail →
      env.openErr pre.length name (decide (op = ">")) = some reason →
      (external env argv).2 = Outcome.exited EXIT_FAILURE ∧
      (external env argv).1.trace.getLast?
        = some (Call.stderr (Diag.fileError name reason)) ∧
      ∀ f a, Call.execvp f a ∉ (external env argv).1.trace) ∧
    Diag.missingFilename.render = "syntax error: missing filename after redirect\n" ∧
    (∀ name reason, (Diag.fileError name reason).render = name ++ ": " ++ reason ++ "\n") ∧
    (∀ shell : Env, (∀ k, k < (split argv).cmd_count → 0 < shell.fork k) →
      (∀ k, k < (split argv).cmd_count →
        (shell.terminalStatus (shell.waits k)).isSome = true) →
      (∀ k, k < (split argv).cmd_count →
        Call.fork (shell.fork k) ∈ (external shell argv).1.trace ∧
        ∃ st, shell.terminalStatus (shell.waits k) = some st ∧
          Call.waitpid (shell.fork k) st ∈ (external shell argv).1.trace) ∧
      ∃ status, (external shell argv).2 = Outcome.returned status) := by
  have hj0 : pre.length ≠ 0 := fun h => hpre (List.length_eq_zero.1 h)
  obtain ⟨cells, hrow⟩ := split_row argv i hi
  obtain ⟨p2, done2, hpass, htr⟩ := redirectLoop_pass env _ pre (Nat.le_refl _) 0 [] cells
    (childPipes (pipesOf env argv) (split argv).cmd_count i (childStart env argv i))
    (op :: rest) rfl hclean
  rw [List.nil_append, Nat.zero_add, ← hst, ← hrow] at hpass
  have hp2 : ∀ c ∈ p2.trace, c.isPlain = true := by
    intro c hc
    rcases htr c hc with h | h
    · exact childPipes_trace (R := fun c => c.isPlain = true) (fun _ h => h) _ _ _ _
        (childStart_plain env argv i) c h
    · exact h
  refine ⟨?_, ?_, rfl, fun _ _ => rfl, ?_⟩
  · intro hrest
    subst hrest
    have hloop : redirectLoop env pre.length [op] (done2 ++ rowOf [op] cells) p2
        = (p2.emit (Call.stderr Diag.missingFilename), none) := by
      simp [redirectLoop, hred, hj0]
    rw [hloop] at hpass
    obtain ⟨h1, h2⟩ := child_exits env argv i hi _ hpass
    rw [external_child env argv i hne hfirst hlast hi hpos hz, h1]
    refine ⟨rfl, by simp [Proc.emit], ?_⟩
    intro f a hm
    exact plain_not_execvp _ (h2 _ hm) f a rfl
  · intro name tail reason hrest hopen
    subst hrest
    have hloop : redirectLoop env pre.length (op :: name :: tail)
        (done2 ++ rowOf (op :: name :: tail) cells) p2
        = ((p2.emit (Call.openFile name (decide (op = ">")) none)).emit
            (Call.stderr (Diag.fileError name reason)), none) := by
      rw [redirectLoop]
      simp only [hred, if_true, if_neg hj0, hopen]
    rw [hloop] at hpass
    obtain ⟨h1, h2⟩ := child_exits env argv i hi _ hpass
    rw [external_child env argv i hne hfirst hlast hi hpos hz, h1]
    refine ⟨rfl, by simp [Proc.emit], ?_⟩
    intro f a hm
    exact plain_not_execvp _ (h2 _ hm) f a rfl
  · intro shell hfork hterm
    obtain ⟨hw, hret⟩ := external_reaps shell argv hne hfirst hlast hfork hterm
    exact ⟨fun k hk => ⟨external_spawns shell argv hne hfirst hlast hfork k hk, hw k hk⟩, hret⟩

theorem child_redirect_failure_witness :
    (split ["ls", "|", "sort", ">", "out", "<", "missing"]).stage 1
      = ["sort", ">", "out"] ++ "<" :: ["missing"] ∧
    (external (Env.noFile 1) ["ls", "|", "sort", ">", "out", "<", "missing"]).1.trace.getLast?
      = some (Call.stderr (Diag.fileError "missing" "No such file or directory")) ∧
    (external (Env.noFile 1) ["ls", "|", "sort", ">", "out", "<", "missing"]).2
      = Outcome.exited EXIT_FAILURE ∧
    ∃ status, (external Env.sample ["ls", "|", "sort", ">", "out", "<", "missing"]).2
      = Outcome.returned status :=
  ⟨by decide,
   ((child_redirect_failure (Env.noFile 1) ["ls", "|", "sort", ">", "out", "<", "missing"] 1
      ["sort", ">", "out"] "<" ["missing"] (by decide) (by decide) (by decide) (by decide)
      (by decide) (by decide) (by decide) (by decide) (by decide) (by decide)
      (by decide)).2.1
      "missing" [] "No such file or directory" rfl (by decide)).2.1,
   ((child_redirect_failure (Env.noFile 1) ["ls", "|", "sort", ">", "out", "<", "missing"] 1
      ["sort", ">", "out"] "<" ["missing"] (by decide) (by decide) (by decide) (by decide)
      (by decide) (by decide) (by decide) (by decide) (by decide) (by decide)
      (by decide)).2.1
      "missing" [] "No such file or directory" rfl (by decide)).1,
   ((child_redirect_failure (Env.noFile 1) ["ls", "|", "sort", ">", "out", "<", "missing"] 1
      ["sort", ">", "out"] "<" ["missing"] (by decide) (by decide) (by decide) (by decide)
      (by decide) (by decide) (by decide) (by decide) (by decide) (by decide)
      (by decide)).2.2.2.2
      Env.sample (by decide) (by decide)).2⟩

/-- C9 (counterexample): in the stage `>` the operator is the token the
loop visits first and nothing follows it, and the child writes "missing
command before" instead of "missing filename after redirect".  On the 18
tokens `a1 ... a15 > | cat` the first stage has 16 tokens, its `NULL` at
`cmds[0][16]` is overwritten by `cat`, and the child of that stage opens a
file named `cat` and calls `execvp` without writing any diagnostic. -/
theorem operator_first_not_filename :
    (external (Env.childOf 0) [">"]).1.trace
      = [Call.fork 0, Call.stderr (Diag.commandBefore ">")] ∧
    Call.stderr Diag.missingFilename ∉ (external (Env.childOf 0) [">"]).1.trace ∧
    getAt [] (chunks [] (args15 ++ [">", "|", "cat"])) 0 = args15 ++ [">"] ∧
    (split (args15 ++ [">", "|", "cat"])).stage 0 = args15 ++ [">", "cat"] ∧
    (external (Env.childOf 0) (args15 ++ [">", "|", "cat"])).1.trace.getLast?
      = some (Call.execvp (some "a1") args15) ∧
    Call.stderr Diag.missingFilename
      ∉ (external (Env.childOf 0) (args15 ++ [">", "|", "cat"])).1.trace := by
  decide

/-! ## A stage that resolves: argument vector and descriptors (lines 128-177) -/

theorem rowOf_head (st : List String) (tail : List Cell) :
    (getAt Cell.unset (rowOf st tail) 0).str = st.head? := by
  cases st <;> rfl

theorem scansCleanly_head (env : Env) (st : List String)
    (h : scansCleanly env 0 st = true) : ∀ t, st.head? = some t → isRedirect t = false := by
  intro t ht
  match st, h, ht with
  | [tok], h, ht =>
    have : tok = t := by simpa using ht
    subst this
    simpa [scansCleanly] using h
  | tok :: name :: rest, h, ht =>
    have : tok = t := by simpa using ht
    subst this
    cases hr : isRedirect tok with
    | false => rfl
    | true => simp [scansCleanly, hr] at h

theorem beforeRedirect_no_operator (st : List String) :
    ∀ t ∈ beforeRedirect st, isRedirect t = false := by
  intro t ht
  have := List.mem_takeWhile_imp ht
  simpa using this

/-- The child of a stage that resolves: it reaches `execvp` with the stage's
first token as the file and the tokens before the first operator as the
argument vector, having made only plain calls before. -/
theorem child_execs (env : Env) (argv : List String) (i : Nat)
    (hi : i < (split argv).cmd_count)
    (hclean : scansCleanly env 0 ((split argv).stage i) = true) :
    ∃ p2 : Proc, (∀ c ∈ p2.trace, c.isPlain = true) ∧
      ((fdGet (childPipes (pipesOf env argv) (split argv).cmd_count i
          (childStart env argv i)).fds 0).isSome = true →
        (fdGet (childPipes (pipesOf env argv) (split argv).cmd_count i
          (childStart env argv i)).fds 1).isSome = true →
        fdGet p2.fds 0 = (match redirectTarget false ((split argv).stage i) with
          | some name => some (Desc.file name false)
          | none => fdGet (childPipes (pipesOf env argv) (split argv).cmd_count i
              (childStart env argv i)).fds 0) ∧
        fdGet p2.fds 1 = (match redirectTarget true ((split argv).stage i) with
          | some name => some (Desc.file name true)
          | none => fdGet (childPipes (pipesOf env argv) (split argv).cmd_count i
              (childStart env argv i)).fds 1)) ∧
      child env (split argv).cmds (pipesOf env argv) (split argv).cmd_count i
          (childStart env argv i)
        = (match env.execErr ((split argv).stage i).head?
              (beforeRedirect ((split argv).stage i)) with
          | none =>
            (p2.emit (Call.execvp ((split argv).stage i).head?
              (beforeRedirect ((split argv).stage i))), Outcome.replaced)
          | some reason =>
            ((p2.emit (Call.execvp ((split argv).stage i).head?
              (beforeRedirect ((split argv).stage i)))).emit
                (Call.stderr (Diag.execError ((split argv).stage i).head? reason)),
             Outcome.exited EXIT_FAILURE)) := by
  obtain ⟨cells, hrow⟩ := split_row argv i hi
  obtain ⟨p2, row2, e, a, g, sfd⟩ := redirectLoop_clean env _ ((split argv).stage i)
    (Nat.le_refl _) 0 [] cells
    (childPipes (pipesOf env argv) (split argv).cmd_count i (childStart env argv i))
    rfl hclean
  rw [List.nil_append] at e a g
  rw [argsOf_rowOf] at a
  have g2 : (getAt Cell.unset row2 0).str = ((split argv).stage i).head? := by
    rw [g, rowOf_head]
  rw [← hrow] at e
  refine ⟨p2, ?_, sfd, ?_⟩
  · have := redirectLoop_trace (R := fun c => c.isPlain = true) (fun _ h => h) env _
      ((split argv).stage i) (Nat.le_refl _) 0 ((split argv).cmds.row i) _
      (childPipes_trace (fun _ h => h) (pipesOf env argv) (split argv).cmd_count i _
        (childStart_plain env argv i))
    rw [e] at this
    exact this
  · unfold child
    simp only []
    rw [if_pos (split_row_terminated argv i hi)]
    have hargs : argsOf ((split argv).cmds.row i) = (split argv).stage i := rfl
    rw [hargs, e]
    simp only [a, g2]

theorem beforeRedirect_self (st : List String) (h : ∀ t ∈ st, isRedirect t = false) :
    beforeRedirect st = st := by
  induction st with
  | nil => rfl
  | cons t rest ih =>
    have ht : isRedirect t = false := h t (by simp)
    have := ih (fun x hx => h x (by simp [hx]))
    simp only [beforeRedirect] at this ⊢
    simp [List.takeWhile, ht, this]

/-- What the child of a stage that resolves passes to `execvp`. -/
theorem child_exec_facts (env : Env) (argv : List String) (i : Nat)
    (hne : argv ≠ []) (hfirst : argv.head? ≠ some "|") (hlast : argv.getLast? ≠ some "|")
    (hi : i < (split argv).cmd_count) (hpos : ∀ k, k < i → 0 < env.fork k)
    (hz : env.fork i = 0) (hclean : scansCleanly env 0 ((split argv).stage i) = true) :
    Call.execvp ((split argv).stage i).head? (beforeRedirect ((split argv).stage i))
      ∈ (external env argv).1.trace ∧
    (∀ f a, Call.execvp f a ∈ (external env argv).1.trace →
      f = ((split argv).stage i).head? ∧ a = beforeRedirect ((split argv).stage i)) ∧
    (∀ t ∈ beforeRedirect ((split argv).stage i), isRedirect t = false) ∧
    (∃ prog, ((split argv).stage i).head? = some prog ∧
      (beforeRedirect ((split argv).stage i)).head? = some prog) ∧
    ((∀ t ∈ (split argv).stage i, isRedirect t = false) →
      beforeRedirect ((split argv).stage i) = (split argv).stage i) := by
  obtain ⟨p2, hplain, _, hchild⟩ := child_execs env argv i hi hclean
  rw [external_child env argv i hne hfirst hlast hi hpos hz, hchild]
  have hmem : ∀ c, c ∈ (match env.execErr ((split argv).stage i).head?
        (beforeRedirect ((split argv).stage i)) with
      | none =>
        (p2.emit (Call.execvp ((split argv).stage i).head?
          (beforeRedirect ((split argv).stage i))), Outcome.replaced)
      | some reason =>
        ((p2.emit (Call.execvp ((split argv).stage i).head?
          (beforeRedirect ((split argv).stage i)))).emit
            (Call.stderr (Diag.execError ((split argv).stage i).head? reason)),
         Outcome.exited EXIT_FAILURE)).1.trace ↔
      (c ∈ p2.trace ∨ c = Call.execvp ((split argv).stage i).head?
          (beforeRedirect ((split argv).stage i)) ∨
        ∃ reason, env.execErr ((split argv).stage i).head?
          (beforeRedirect ((split argv).stage i)) = some reason ∧
          c = Call.stderr (Diag.execError ((split argv).stage i).head? reason)) := by
    intro c
    cases env.execErr ((split argv).stage i).head? (beforeRedirect ((split argv).stage i)) with
    | none => simp [Proc.emit]
    | some reason => simp [Proc.emit, or_assoc]
  have hnonempty : (split argv).stage i ≠ [] := split_stage_ne_nil argv hne hlast i hi
  refine ⟨(hmem _).2 (Or.inr (Or.inl rfl)), ?_, beforeRedirect_no_operator _, ?_,
    beforeRedirect_self _⟩
  · intro f a hfa
    rcases (hmem _).1 hfa with h | h | ⟨r, _, h⟩
    · exact absurd rfl (plain_not_execvp _ (hplain _ h) f a)
    · cases h
      exact ⟨rfl, rfl⟩
    · cases h
  · cases hst : (split argv).stage i with
    | nil => exact absurd hst hnonempty
    | cons t rest =>
      have ht : isRedirect t = false :=
        scansCleanly_head env _ hclean t (by rw [hst]; rfl)
      exact ⟨t, rfl, by simp [beforeRedirect, List.takeWhile, ht]⟩

/-- C4 (as the code has it): in the child of a stage of fewer than 16
tokens that resolves, `execvp` is called exactly once over the run, with the
stage's first token as the file and, as argument vector, the stage's tokens
before its first redirection operator (all of them when it has none); that
vector holds no `<` or `>` and starts with the stage's first token. -/
theorem child_exec_args (env : Env) (argv : List String) (i : Nat)
    (hne : argv ≠ []) (hfirst : argv.head? ≠ some "|") (hlast : argv.getLast? ≠ some "|")
    (hi : i < (split argv).cmd_count)
    (_hfit : ((split argv).stage i).length < CMD_COLS)
    (hpos : ∀ k, k < i → 0 < env.fork k)
    (hz : env.fork i = 0) (hclean : scansCleanly env 0 ((split argv).stage i) = true) :
    Call.execvp ((split argv).stage i).head? (beforeRedirect ((split argv).stage i))
      ∈ (external env argv).1.trace ∧
    (∀ f a, Call.execvp f a ∈ (external env argv).1.trace →
      f = ((split argv).stage i).head? ∧ a = beforeRedirect ((split argv).stage i)) ∧
    (∀ t ∈ beforeRedirect ((split argv).stage i), isRedirect t = false) ∧
    (∃ prog, ((split argv).stage i).head? = some prog ∧
      (beforeRedirect ((split argv).stage i)).head? = some prog) ∧
    ((∀ t ∈ (split argv).stage i, isRedirect t = false) →
      beforeRedirect ((split argv).stage i) = (split argv).stage i) :=
  child_exec_facts env argv i hne hfirst hlast hi hpos hz hclean

theorem child_exec_args_witness :
    (split ["ls", "|", "sort", "-r", ">", "out", "-u"]).stage 1 = ["sort", "-r", ">", "out", "-u"] ∧
    Call.execvp (some "sort") ["sort", "-r"]
      ∈ (external (Env.childOf 1) ["ls", "|", "sort", "-r", ">", "out", "-u"]).1.trace :=
  ⟨by decide,
   (child_exec_args (Env.childOf 1) ["ls", "|", "sort", "-r", ">", "out", "-u"] 1
      (by decide) (by decide) (by decide) (by decide) (by decide) (by decide) (by decide)
      (by decide)).1⟩

/-- C4 (counterexample): for the stage `sort < in -r` every `open` succeeds,
and the child calls `execvp` with the vector `sort` alone, while the stage
with the operator and the name after it removed is `sort -r`.  On the 18
tokens `echo 1 ... 15 | cat` the first stage has 16 tokens and no
redirection, and its child calls `execvp` with the 17 tokens
`echo 1 ... 15 cat`. -/
theorem exec_args_truncated :
    scansCleanly (Env.childOf 0) 0 ["sort", "<", "in", "-r"] = true ∧
    (external (Env.childOf 0) ["sort", "<", "in", "-r"]).1.trace.getLast?
      = some (Call.execvp (some "sort") ["sort"]) ∧
    stripRedirects ["sort", "<", "in", "-r"] = ["sort", "-r"] ∧
    getAt [] (chunks [] (echo15 ++ ["|", "cat"])) 0 = echo15 ∧
    stripRedirects echo15 = echo15 ∧
    (external (Env.childOf 0) (echo15 ++ ["|", "cat"])).1.trace.getLast?
      = some (Call.execvp (some "echo") (echo15 ++ ["cat"])) := by
  decide

/-- C5 (as the code has it): in the child of stage `i`, a stage of fewer
than 16 tokens that resolves, in a shell entered with descriptors 0 and 1
open and whose `pipe` calls all succeed, `execvp` is called, and at that
point descriptor 0 refers to the file of the stage's last `<` redirection if
there is one, else to the read end of pipe `i - 1` if `i > 0`, else to what
it referred to on entry; descriptor 1 refers to the file of the last `>`
redirection if there is one, else to the write end of pipe `i` if `i` is not
the last stage, else to what it referred to on entry.  Each slot depends on
the redirections of its own direction only. -/
theorem child_descriptors (env : Env) (argv : List String) (i : Nat)
    (hne : argv ≠ []) (hfirst : argv.head? ≠ some "|") (hlast : argv.getLast? ≠ some "|")
    (hi : i < (split argv).cmd_count)
    (_hfit : ((split argv).stage i).length < CMD_COLS)
    (hpos : ∀ k, k < i → 0 < env.fork k)
    (hz : env.fork i = 0) (hclean : scansCleanly env 0 ((split argv).stage i) = true)
    (h0 : (fdGet env.fds0 0).isSome = true) (h1 : (fdGet env.fds0 1).isSome = true)
    (hpipes : ∀ k, k < (split argv).cmd_count - 1 → env.pipeOk k = true) :
    Call.execvp ((split argv).stage i).head? (beforeRedirect ((split argv).stage i))
      ∈ (external env argv).1.trace ∧
    fdGet (external env argv).1.fds 0
      = (match redirectTarget false ((split argv).stage i) with
        | some name => some (Desc.file name false)
        | none => if 0 < i then some (Desc.pipeRead (i - 1)) else fdGet env.fds0 0) ∧
    fdGet (external env argv).1.fds 1
      = (match redirectTarget true ((split argv).stage i) with
        | some name => some (Desc.file name true)
        | none =>
          if i < (split argv).cmd_count - 1 then some (Desc.pipeWrite i)
          else fdGet env.fds0 1) := by
  have hexec := (child_exec_facts env argv i hne hfirst hlast hi hpos hz hclean).1
  refine ⟨hexec, ?_⟩
  obtain ⟨c1, c2, c3⟩ := createPipes_fds env ((split argv).cmd_count - 1) 0 ⟨env.fds0, []⟩
    (fun m hm => by rw [Nat.zero_add]; exact hpipes m hm)
  have hlen := (createPipes_calls env ((split argv).cmd_count - 1) 0 ⟨env.fds0, []⟩).2
  have n0 : 0 ∉ pipeFds (pipesOf env argv) := by
    intro h
    have := c3 0 h
    rw [this] at h0
    cases h0
  have n1 : 1 ∉ pipeFds (pipesOf env argv) := by
    intro h
    have := c3 1 h
    rw [this] at h1
    cases h1
  obtain ⟨q0, q1⟩ := childPipes_fds (pipesOf env argv) (split argv).cmd_count i
    (childStart env argv i) n0 n1 hlen
    (fun hi0 => by
      have := (c2 (i - 1) (by omega)).1
      rwa [Nat.zero_add] at this)
    (fun hi1 => by
      have := (c2 i hi1).2
      rwa [Nat.zero_add] at this)
  have s0 : fdGet (childStart env argv i).fds 0 = fdGet env.fds0 0 := c1 0 h0
  have s1 : fdGet (childStart env argv i).fds 1 = fdGet env.fds0 1 := c1 1 h1
  rw [s0] at q0
  rw [s1] at q1
  obtain ⟨p2, _, hfd, hchild⟩ := child_execs env argv i hi hclean
  obtain ⟨f0, f1⟩ := hfd (by rw [q0]; split <;> simp [h0]) (by rw [q1]; split <;> simp [h1])
  rw [q0] at f0
  rw [q1] at f1
  rw [external_child env argv i hne hfirst hlast hi hpos hz, hchild]
  have hfds : (match env.execErr ((split argv).stage i).head?
        (beforeRedirect ((split argv).stage i)) with
      | none =>
        (p2.emit (Call.execvp ((split argv).stage i).head?
          (beforeRedirect ((split argv).stage i))), Outcome.replaced)
      | some reason =>
        ((p2.emit (Call.execvp ((split argv).stage i).head?
          (beforeRedirect ((split argv).stage i)))).emit
            (Call.stderr (Diag.execError ((split argv).stage i).head? reason)),
         Outcome.exited EXIT_FAILURE)).1.fds = p2.fds := by
    cases env.execErr ((split argv).stage i).head? (beforeRedirect ((split argv).stage i)) <;> rfl
  rw [hfds]
  exact ⟨f0, f1⟩

theorem child_descriptors_witness :
    (split ["cat", "|", "sort", ">", "a", ">", "out", "|", "wc"]).stage 1
      = ["sort", ">", "a", ">", "out"] ∧
    fdGet (external (Env.childOf 1) ["cat", "|", "sort", ">", "a", ">", "out", "|", "wc"]).1.fds 0
      = some (Desc.pipeRead 0) ∧
    fdGet (external (Env.childOf 1) ["cat", "|", "sort", ">", "a", ">", "out", "|", "wc"]).1.fds 1
      = some (Desc.file "out" true) :=
  ⟨by decide,
   (child_descriptors (Env.childOf 1) ["cat", "|", "sort", ">", "a", ">", "out", "|", "wc"] 1
      (by decide) (by decide) (by decide) (by decide) (by decide) (by decide) (by decide)
      (by decide) (by decide) (by decide) (by decide)).2.1,
   (child_descriptors (Env.childOf 1) ["cat", "|", "sort", ">", "a", ">", "out", "|", "wc"] 1
      (by decide) (by decide) (by decide) (by decide) (by decide) (by decide) (by decide)
      (by decide) (by decide) (by decide) (by decide)).2.2⟩

/-- C5 (counterexample): four runs in which the stage has no redirection of
the direction looked at and resolves, and the descriptor at `execvp` is not
the one of the claim.  In a shell entered with descriptor 1 closed, on
`a | b`, `pipe` returns the descriptors 1 and 3; the child of stage 0, which
is not the last stage, puts the write end on descriptor 1 and then closes it
in the loop that closes the pipes, so it calls `execvp` with descriptor 1
closed.  In a shell entered with descriptor 0 closed, `pipe` returns 0 and 3,
and the child of stage 1 closes descriptor 0 in the same loop.  When `pipe`
fails, the child of stage 0 calls `execvp` with descriptor 1 as it was on
entry.  On the 20 tokens `echo 1 ... 15 | cat > out` the first stage has 16
tokens, and its child calls `execvp` with descriptor 1 on the file `out`. -/
theorem descriptors_not_as_claimed :
    (split ["a", "|", "b"]).stages = [["a"], ["b"]] ∧
    (external (Env.stdoutClosed 0) ["a", "|", "b"]).1.trace
      = [Call.pipe 1 3, Call.fork 0, Call.dup2 3 1, Call.close 1, Call.close 3,
          Call.execvp (some "a") ["a"]] ∧
    fdGet (external (Env.stdoutClosed 0) ["a", "|", "b"]).1.fds 1 = none ∧
    (external (Env.stdinClosed 1) ["a", "|", "b"]).1.trace
      = [Call.pipe 0 3, Call.fork 100, Call.fork 0, Call.dup2 0 0, Call.close 0, Call.close 3,
          Call.execvp (some "b") ["b"]] ∧
    fdGet (external (Env.stdinClosed 1) ["a", "|", "b"]).1.fds 0 = none ∧
    (external (Env.pipeFails 0) ["a", "|", "b"]).1.trace
      = [Call.pipeFailed, Call.fork 0, Call.dup2 8 1, Call.close 7, Call.close 8,
          Call.execvp (some "a") ["a"]] ∧
    fdGet (external (Env.pipeFails 0) ["a", "|", "b"]).1.fds 1 = some (Desc.inherited 1) ∧
    getAt [] (chunks [] (echo15 ++ ["|", "cat", ">", "out"])) 0 = echo15 ∧
    redirectTarget true echo15 = none ∧
    (external (Env.childOf 0) (echo15 ++ ["|", "cat", ">", "out"])).2 = Outcome.replaced ∧
    fdGet (external (Env.childOf 0) (echo15 ++ ["|", "cat", ">", "out"])).1.fds 1
      = some (Desc.file "out" true) := by
  decide

end Shell
